import Mathlib

/-!
# meetup-demo: the configuration loader and the HTTP handlers of `main.go`

A shallow embedding of `src/main.go`.

* Go strings are byte sequences (`GoString`); a byte is a natural number.
* `map[string]string` is `GoMap`, an association list without repeated keys.
* The file system that `filepath.WalkDir` scans is a tree (`Node`, `Root`)
  whose entries carry the result of every system call the walk makes on them.
* `log.Fatal` ends the process; a function that may call it returns an
  `Outcome`.
* The functions of the Go library that `main.go` calls (`filepath.WalkDir`,
  `os.ReadDir`, `utf8.DecodeRuneInString`, `json.Encoder`) are embedded as
  far as `main.go` uses them. The cache service and the client of a request
  are inputs: the result of a probe (`Cache`) and the state of the response
  writer (`ResponseWriter`). Lines written to the log are left out.
-/

namespace MeetupDemo

/-! ## Go strings -/

/-- A Go `string`: an immutable sequence of bytes, not necessarily UTF-8. A
byte is a number below 256; the functions below treat a larger number like a
byte that starts no UTF-8 sequence. -/
abbrev GoString := List Nat

/-- The bytes of a Lean string literal made of ASCII characters only. -/
def ascii (s : String) : GoString := s.data.map Char.toNat

/-- Go's `s < t` on strings: lexicographic comparison of the bytes. -/
def strLt : GoString → GoString → Bool
  | [], [] => false
  | [], _ :: _ => true
  | _ :: _, [] => false
  | a :: s, b :: t => if a < b then true else if b < a then false else strLt s t

/-- Go's `s <= t` on strings. -/
def strLe (s t : GoString) : Bool := !strLt t s

/-- Order of two named items by their names, the order of `os.ReadDir` and of
the keys of a marshalled map. -/
def nameLe {α : Type} (a b : GoString × α) : Prop := strLe a.1 b.1 = true

instance nameLeDecidable {α : Type} : DecidableRel (nameLe (α := α)) :=
  fun a b => inferInstanceAs (Decidable (strLe a.1 b.1 = true))

/-- Sort named items by name (`sort.Slice` with `Name() < Name()` in
`os.ReadDir`, and the key sort of `encoding/json` for maps). -/
def sortByName {α : Type} (l : List (GoString × α)) : List (GoString × α) :=
  l.insertionSort nameLe

/-! ## `map[string]string` -/

/-- A Go `map[string]string`: finitely many entries, no key twice. -/
structure GoMap where
  entries : List (GoString × GoString)
  nodup : (entries.map Prod.fst).Nodup
  deriving DecidableEq

namespace GoMap

/-- The map `make(map[string]string)`. -/
def empty : GoMap := ⟨[], List.nodup_nil⟩

/-- The lookup `v, ok := m[k]`. -/
def get (m : GoMap) (k : GoString) : Option GoString :=
  (m.entries.find? (fun p => p.1 = k)).map Prod.snd

/-- The expression `m[k]`: the zero value `""` when the key is absent. -/
def index (m : GoMap) (k : GoString) : GoString := (m.get k).getD []

/-- The assignment `m[k] = v`. -/
def set (m : GoMap) (k v : GoString) : GoMap :=
  ⟨(k, v) :: m.entries.filter (fun p => p.1 ≠ k), by
    have h := m.nodup
    rw [List.map_cons, List.nodup_cons]
    refine ⟨?_, ?_⟩
    · intro hk
      obtain ⟨p, hp, hpk⟩ := List.mem_map.1 hk
      have := (List.mem_filter.1 hp).2
      simp at this
      exact this hpk
    · exact (List.filter_sublist _).map Prod.fst |>.nodup h⟩

/-- The key set of the map. -/
def keys (m : GoMap) : List GoString := m.entries.map Prod.fst

/-- The builtin `len(m)`. -/
def len (m : GoMap) : Nat := m.entries.length

end GoMap

/-! ## UTF-8 (`unicode/utf8`) -/

/-- The rune `utf8.RuneError`, U+FFFD. -/
def RuneError : Nat := 0xFFFD

/-- The table `first` of `unicode/utf8` with `acceptRanges`: for a leading
byte of a sequence of two to four bytes, the length of the sequence and the
lowest and highest second byte accepted; `none` for the other bytes. -/
def first (b : Nat) : Option (Nat × Nat × Nat) :=
  if 0xC2 ≤ b ∧ b ≤ 0xDF then some (2, 0x80, 0xBF)
  else if b = 0xE0 then some (3, 0xA0, 0xBF)
  else if 0xE1 ≤ b ∧ b ≤ 0xEC then some (3, 0x80, 0xBF)
  else if b = 0xED then some (3, 0x80, 0x9F)
  else if 0xEE ≤ b ∧ b ≤ 0xEF then some (3, 0x80, 0xBF)
  else if b = 0xF0 then some (4, 0x90, 0xBF)
  else if 0xF1 ≤ b ∧ b ≤ 0xF3 then some (4, 0x80, 0xBF)
  else if b = 0xF4 then some (4, 0x80, 0x8F)
  else none

/-- The part of `utf8.DecodeRuneInString` for a leading byte `s0` of a
sequence of `sz` bytes whose second byte must lie between `lo` and `hi`;
`rest` is the string after `s0`. The masks `s0&mask` are remainders and the
shifts are products; the continuation bytes lie between `locb` and `hicb`. -/
def decodeMulti (sz lo hi s0 : Nat) (rest : GoString) : Nat × Nat :=
  if rest.length + 1 < sz then (RuneError, 1)
  else
    let s1 := rest.getD 0 0
    if s1 < lo ∨ hi < s1 then (RuneError, 1)
    else if sz ≤ 2 then (s0 % 32 * 64 + s1 % 64, 2)
    else
      let s2 := rest.getD 1 0
      if s2 < 0x80 ∨ 0xBF < s2 then (RuneError, 1)
      else if sz ≤ 3 then (s0 % 16 * 4096 + s1 % 64 * 64 + s2 % 64, 3)
      else
        let s3 := rest.getD 2 0
        if s3 < 0x80 ∨ 0xBF < s3 then (RuneError, 1)
        else (s0 % 8 * 262144 + s1 % 64 * 4096 + s2 % 64 * 64 + s3 % 64, 4)

/-- The function `utf8.DecodeRuneInString`: the first rune of `s` and its
width in bytes; `(RuneError, 0)` for the empty string and `(RuneError, 1)`
for an encoding that is not valid. -/
def decodeRune (s : GoString) : Nat × Nat :=
  match s with
  | [] => (RuneError, 0)
  | s0 :: rest =>
    if s0 < 0x80 then (s0, 1)
    else
      match first s0 with
      | none => (RuneError, 1)
      | some (sz, lo, hi) => decodeMulti sz lo hi s0 rest

/-- The loop of `utf8.ValidString`, with the length of the string as bound on
the number of runes. -/
def validLoop : Nat → GoString → Bool
  | _, [] => true
  | 0, _ :: _ => false
  | n + 1, s0 :: rest =>
    let (c, size) := decodeRune (s0 :: rest)
    if c = RuneError ∧ size = 1 then false
    else validLoop n ((s0 :: rest).drop size)

/-- The function `utf8.ValidString`. -/
def validString (s : GoString) : Bool := validLoop s.length s

/-- The function `utf8.AppendRune`: the UTF-8 encoding of a rune, that of
U+FFFD for a surrogate half and for a value above U+10FFFF. -/
def encodeRune (r : Nat) : GoString :=
  if r < 0x80 then [r]
  else if r < 0x800 then [0xC0 + r / 64, 0x80 + r % 64]
  else if 0x10FFFF < r ∨ (0xD800 ≤ r ∧ r ≤ 0xDFFF) then [0xEF, 0xBF, 0xBD]
  else if r < 0x10000 then [0xE0 + r / 4096, 0x80 + r / 64 % 64, 0x80 + r % 64]
  else [0xF0 + r / 262144, 0x80 + r / 4096 % 64, 0x80 + r / 64 % 64, 0x80 + r % 64]

/-- A valid UTF-8 sequence of two to four bytes and the rune it encodes. -/
structure IsRune (seq : GoString) (c : Nat) : Prop where
  length_ge : 2 ≤ seq.length
  length_le : seq.length ≤ 4
  high : ∀ x ∈ seq, 0x80 ≤ x
  decode : ∀ t, decodeRune (seq ++ t) = (c, seq.length)
  encode : encodeRune c = seq

/-! ## The file system under the configuration directory -/

/-- The errors of the system calls of the walk (`syscall.Errno`). -/
inductive Errno where
  | ENOENT
  | EACCES
  | EIO
  | ENOTDIR
  | EPIPE
  | ECONNRESET
  deriving DecidableEq, Repr

/-- The test `errors.Is(err, os.ErrNotExist)`: of the error numbers only
`ENOENT` is `os.ErrNotExist`. -/
def Errno.isNotExist : Errno → Bool
  | .ENOENT => true
  | _ => false

/-- What is at a path, as `os.Lstat` reports its mode, with the result of the
call the walk makes on it next: `os.ReadFile` on a regular file, `os.ReadDir`
on a directory (`none`: no error; the entries are in the order in which the
directory stores them). Each entry of a directory carries its name and the
error, if any, of the `os.Lstat` call of the walk function on it. -/
inductive Node where
  | regular (readFile : Except Errno GoString)
  | symlink (target : GoString)
  | irregular
  | dir (readDir : Option Errno) (entries : List (GoString × Option Errno × Node))

/-- The path `/configurations` as the first `os.Lstat` of `filepath.WalkDir`
finds it: the call fails, or there is something there. -/
inductive Root where
  | failed (e : Errno)
  | present (lstat : Option Errno) (node : Node)

/-- The base name of the root path `/configurations`. -/
def rootName : GoString := ascii "configurations"

/-- How a function that may call `log.Fatal` ends. -/
inductive Outcome (α : Type) where
  | returned (a : α)
  | fatal (e : Errno)
  deriving DecidableEq

/-- The state of the walk: the map being filled and the error returned. -/
abbrev Walk := GoMap → GoMap × Option Errno

/-- The function literal passed to `filepath.WalkDir` (main.go:101-122), for
an entry with base name `name`: `err` is the error the walk hands over,
`lstat` the error of `os.Lstat(path)`, `node` what `Lstat` finds. -/
def walkFn (name : GoString) (lstat : Option Errno) (node : Node)
    (err : Option Errno) : Walk := fun config =>
  match err with
  | some e => (config, some e)
  | none =>
    match lstat with
    | some e => (config, some e)
    | none =>
      match node with
      | .regular (.error e) => (config, some e)
      | .regular (.ok fileContent) => (config.set name fileContent, none)
      | _ => (config, none)

/-- Run the walks of the entries of a directory in order, until one returns
an error (the loop of `walkDir` in `path/filepath`). -/
def runWalks : List (GoString × Walk) → Walk
  | [], config => (config, none)
  | (_, w) :: rest, config =>
    match w config with
    | (config, some e) => (config, some e)
    | (config, none) => runWalks rest config

mutual
/-- The function `walkDir` of `path/filepath`: call the walk function on the
entry; for a directory read it with `os.ReadDir`, report a read error to the
walk function, and walk the entries in the order of `os.ReadDir`, which is the
order of their names: `walkEntries` pairs every entry with its walk,
`sortByName` puts the pairs in that order and `runWalks` runs them up to the
first error. The walk function never returns `SkipDir` or `SkipAll`. -/
def walkDir (name : GoString) (lstat : Option Errno) : Node → Walk
  | .dir readDir entries => fun config =>
    match walkFn name lstat (.dir readDir entries) none config with
    | (config, some e) => (config, some e)
    | (config, none) =>
      match readDir with
      | some e => walkFn name lstat (.dir readDir entries) (some e) config
      | none => runWalks (sortByName (walkEntries entries)) config
  | .regular r => walkFn name lstat (.regular r) none
  | .symlink t => walkFn name lstat (.symlink t) none
  | .irregular => walkFn name lstat .irregular none
/-- The walk of every entry of a directory, by name. -/
def walkEntries : List (GoString × Option Errno × Node) → List (GoString × Walk)
  | [] => []
  | (name, lstat, node) :: rest => (name, walkDir name lstat node) :: walkEntries rest
end

/-- The call `filepath.WalkDir("/configurations", fn)`: when `os.Lstat` of
the root fails the walk function is called with that error, otherwise the
root is walked. -/
def WalkDir : Root → Walk
  | .failed e => walkFn rootName none .irregular (some e)
  | .present lstat node => walkDir rootName lstat node

/-- The function `readConfig` (main.go:98-131): walk the tree from an empty
map; end the process when the walk returns an error that is not
`os.ErrNotExist`, else return the map. -/
def readConfig (root : Root) : Outcome GoMap :=
  match WalkDir root GoMap.empty with
  | (config, some err) =>
    if !err.isNotExist then .fatal err else .returned config
  | (config, none) => .returned config

/-! ## The walk order, for stating what `readConfig` computes -/

/-- An entry of a directory: name, error of `os.Lstat`, what is there. -/
abbrev Entry := GoString × Option Errno × Node

mutual
/-- The entries of a tree in the order of the walk: an entry before the
entries below it, the entries of a directory in the order of their names. -/
def walkOrder (name : GoString) (lstat : Option Errno) : Node → List Entry
  | .dir readDir entries =>
    (name, lstat, .dir readDir entries) ::
      ((sortByName (orderEntries entries)).map Prod.snd).flatten
  | .regular r => [(name, lstat, .regular r)]
  | .symlink t => [(name, lstat, .symlink t)]
  | .irregular => [(name, lstat, .irregular)]
/-- The walk order of every entry of a directory, by name. -/
def orderEntries : List Entry → List (GoString × List Entry)
  | [] => []
  | (name, lstat, node) :: rest => (name, walkOrder name lstat node) :: orderEntries rest
end

/-- The error of the system calls of the walk on one entry, if any: that of
`os.Lstat`, else that of `os.ReadFile` or `os.ReadDir`. -/
def entryFault : Entry → Option Errno
  | (_, some e, _) => some e
  | (_, none, .regular (.error e)) => some e
  | (_, none, .dir (some e) _) => some e
  | _ => none

/-- The base name and content of an entry that is a readable regular file. -/
def entryFile : Entry → Option (GoString × GoString)
  | (name, none, .regular (.ok content)) => some (name, content)
  | _ => none

/-- Visit entries in order up to the first error, storing each regular file
under its base name. -/
def scan : List Entry → Walk
  | [], config => (config, none)
  | e :: rest, config =>
    match entryFault e with
    | some err => (config, some err)
    | none =>
      match entryFile e with
      | some (k, v) => scan rest (config.set k v)
      | none => scan rest config

/-- The entries of a tree: the entry at its top, and the entries of the
trees of the entries of a directory. -/
inductive InTree : GoString → Option Errno → Node → Entry → Prop where
  | top (name : GoString) (lstat : Option Errno) (node : Node) :
      InTree name lstat node (name, lstat, node)
  | under (name : GoString) (lstat readDir : Option Errno) (entries : List Entry)
      (p e : Entry) : p ∈ entries → InTree p.1 p.2.1 p.2.2 e →
      InTree name lstat (.dir readDir entries) e

/-- Whether `os.Lstat` reports a regular file (`Mode().IsRegular()`). -/
def Node.isRegular : Node → Bool
  | .regular _ => true
  | _ => false

/-- The entries under the root path. -/
def Root.InTree : Root → Entry → Prop
  | .failed _, _ => False
  | .present lstat node, e => MeetupDemo.InTree rootName lstat node e

/-- The entries under the root path in the order of the walk. -/
def Root.walkOrder : Root → List Entry
  | .failed _ => []
  | .present lstat node => MeetupDemo.walkOrder rootName lstat node

/-- The errors of the system calls of a scan of the whole tree, in the order
of the walk; the first one is the error that the scan meets. -/
def Root.faults : Root → List Errno
  | .failed e => [e]
  | .present lstat node => (MeetupDemo.walkOrder rootName lstat node).filterMap entryFault

/-- The content of the last regular file with base name `k` in a sequence of
entries. -/
def lastFile (k : GoString) (l : List Entry) : Option GoString :=
  ((l.filterMap entryFile).reverse.find? (fun p => p.1 = k)).map Prod.snd

/-- Store files in a map, in order (`config[name] = content`). -/
def setAll (config : GoMap) (files : List (GoString × GoString)) : GoMap :=
  files.foldl (fun c kv => c.set kv.1 kv.2) config

/-- The map filled by the entries visited before the first error. -/
def Root.loaded (root : Root) : GoMap :=
  setAll GoMap.empty
    ((root.walkOrder.takeWhile (fun e => (entryFault e).isNone)).filterMap entryFile)

/-- A configuration directory with the files `a` and `b`, where `b` is
removed after `os.ReadDir` has listed it: `os.Lstat` on it fails. -/
def vanishedEntryTree : Root :=
  .present none (.dir none [
    (ascii "a", none, .regular (.ok (ascii "1"))),
    (ascii "b", some .ENOENT, .regular (.ok (ascii "2")))])

/-- A configuration directory with two files of the same base name, a
symbolic link to one of them and an empty directory. -/
def sampleTree : Root :=
  .present none (.dir none [
    (ascii "z", none, .regular (.ok (ascii "top"))),
    (ascii "sub", none, .dir none [(ascii "z", none, .regular (.ok (ascii "deep")))]),
    (ascii "link", none, .symlink (ascii "z")),
    (ascii "void", none, .dir none [])])

/-- Whether the root path itself does not exist. -/
def Root.missing : Root → Bool
  | .failed e => e.isNotExist
  | .present _ _ => false

/-! ## `encoding/json`: encoding -/

/-- The table `htmlSafeSet`: the ASCII bytes that a JSON string holds as they
are when HTML escaping is on (the default of an `Encoder`). -/
def htmlSafeSet (b : Nat) : Bool :=
  0x20 ≤ b && b < 0x80 && b != 0x22 && b != 0x5C && b != 0x26 && b != 0x3C && b != 0x3E

/-- The digit `"0123456789abcdef"[n]`. -/
def hex (n : Nat) : Nat := if n < 10 then 0x30 + n else 0x57 + n

/-- The escape that `appendString` writes for an ASCII byte outside
`htmlSafeSet`. (Releases of Go before 1.22 write the bytes 8 and 12 as
`\u0008` and `\u000c`.) -/
def escapeByte (b : Nat) : GoString :=
  if b = 0x5C ∨ b = 0x22 then [0x5C, b]
  else if b = 0x08 then [0x5C, 0x62]
  else if b = 0x0C then [0x5C, 0x66]
  else if b = 0x0A then [0x5C, 0x6E]
  else if b = 0x0D then [0x5C, 0x72]
  else if b = 0x09 then [0x5C, 0x74]
  else [0x5C, 0x75, 0x30, 0x30, hex (b / 16), hex (b % 16)]

/-- The loop of `appendString` over the bytes of the string, with the length
of the string as bound on the number of steps: a safe ASCII byte is copied, any
other ASCII byte is escaped, a byte that starts no valid UTF-8 sequence becomes
`\ufffd`, U+2028 and U+2029 become `\u2028` and `\u2029`, any other rune
is copied. -/
def appendStringLoop : Nat → GoString → GoString
  | _, [] => []
  | 0, _ :: _ => []
  | n + 1, b :: rest =>
    if b < 0x80 then
      (if htmlSafeSet b then [b] else escapeByte b) ++ appendStringLoop n rest
    else
      let (c, size) := decodeRune (b :: rest)
      if c = RuneError ∧ size = 1 then
        [0x5C, 0x75, 0x66, 0x66, 0x66, 0x64] ++ appendStringLoop n rest
      else if c = 0x2028 ∨ c = 0x2029 then
        [0x5C, 0x75, 0x32, 0x30, 0x32, hex (c % 16)] ++
          appendStringLoop n ((b :: rest).drop size)
      else
        (b :: rest).take size ++ appendStringLoop n ((b :: rest).drop size)

/-- The function `appendString` of `encoding/json` with `escapeHTML` set: a
Go string as a JSON string, between double quotes. -/
def appendString (s : GoString) : GoString :=
  0x22 :: appendStringLoop s.length s ++ [0x22]

/-- JSON texts as `encoding/json` builds them from Go values. -/
inductive JValue where
  | null
  | number (n : Int)
  | string (s : GoString)
  | object (members : List (GoString × JValue))

/-- The Go values that reach `writeJSONResponse`, as `reflect` presents them
to `encoding/json`: strings, integers, pointers and interfaces (`none` is
nil), `map[string]string`, and structs with, for each field, the name of the
JSON member, whether the field is exported, whether its tag has `omitempty`,
and its value. The store, `PingResult` and the errors of the Redis client and
of package `net` are made of these kinds, which `encoding/json` encodes
without error. -/
inductive GoValue where
  | str (s : GoString)
  | int (n : Int)
  | ptr (v : Option GoValue)
  | strMap (m : GoMap)
  | struct (fields : List (GoString × Bool × Bool × GoValue))

/-- The function `isEmptyValue` of `encoding/json`, which decides `omitempty`:
the empty string, zero, a nil pointer or interface, an empty map. -/
def isEmptyValue : GoValue → Bool
  | .str s => s.isEmpty
  | .int n => n == 0
  | .ptr v => v.isNone
  | .strMap m => m.len == 0
  | .struct _ => false

mutual
/-- The JSON of a Go value (`json.Marshal`): a map has its members in the
order of its keys, a struct one member for each exported field, in the order
of the fields, except the empty ones with `omitempty`; a pointer or interface
is encoded as the value it holds, `null` when nil. -/
def marshal : GoValue → JValue
  | .str s => .string s
  | .int n => .number n
  | .ptr none => .null
  | .ptr (some v) => marshal v
  | .strMap m => .object ((sortByName m.entries).map (fun kv => (kv.1, .string kv.2)))
  | .struct fields => .object (marshalFields fields)
/-- The members of a struct. -/
def marshalFields : List (GoString × Bool × Bool × GoValue) → List (GoString × JValue)
  | [] => []
  | (name, exported, omitEmpty, v) :: rest =>
    if exported && !(omitEmpty && isEmptyValue v) then (name, marshal v) :: marshalFields rest
    else marshalFields rest
end

/-- The decimal digits of an integer (`strconv.AppendInt`). -/
def decimal (n : Int) : GoString :=
  (if n < 0 then [0x2D] else []) ++ (Nat.toDigits 10 n.natAbs).map Char.toNat

/-- The line break of `json.Indent` for the indent of `writeJSONResponse`:
a new line, then `depth` times four spaces (the line start is empty). -/
def newline (depth : Nat) : GoString := 0x0A :: List.replicate (4 * depth) 0x20

mutual
/-- The text of a JSON value as `Encoder.Encode` writes it after
`SetIndent("", "    ")`, inside `depth` objects: every member of an object on
a line of its own, one level deeper than the braces, `": "` between name and
value, and `{}` for the object without member. -/
def render (depth : Nat) : JValue → GoString
  | .null => ascii "null"
  | .number n => decimal n
  | .string s => appendString s
  | .object [] => [0x7B, 0x7D]
  | .object (m :: ms) =>
    [0x7B] ++ newline (depth + 1) ++ renderMembers (depth + 1) (m :: ms) ++
      newline depth ++ [0x7D]
/-- The members of an object, a comma and a line break between two. -/
def renderMembers (depth : Nat) : List (GoString × JValue) → GoString
  | [] => []
  | (k, v) :: rest =>
    appendString k ++ [0x3A, 0x20] ++ render depth v ++
      (match rest with
        | [] => []
        | _ :: _ => [0x2C] ++ newline depth ++ renderMembers depth rest)
end

/-- The bytes that `Encoder.Encode(v)` writes: the indented text and a new
line. -/
def encode (v : GoValue) : GoString := render 0 (marshal v) ++ [0x0A]

/-! ## `encoding/json`: decoding an object of strings -/

/-- The value of a hexadecimal digit (`getu4`). -/
def hexVal (c : Nat) : Option Nat :=
  if 0x30 ≤ c ∧ c ≤ 0x39 then some (c - 0x30)
  else if 0x61 ≤ c ∧ c ≤ 0x66 then some (c - 0x57)
  else if 0x41 ≤ c ∧ c ≤ 0x46 then some (c - 0x37)
  else none

/-- The function `getu4` of `encoding/json`: the number written by the four
hexadecimal digits at the head of the text, which stands after `\u`. -/
def getu4 (s : GoString) : Option Nat :=
  match s with
  | a :: b :: c :: d :: _ =>
    match hexVal a, hexVal b, hexVal c, hexVal d with
    | some a, some b, some c, some d => some (((a * 16 + b) * 16 + c) * 16 + d)
    | _, _, _, _ => none
  | _ => none

/-- The byte that stands for a one-letter escape of a JSON string. -/
def unescape (e : Nat) : Option Nat :=
  if e = 0x22 ∨ e = 0x5C ∨ e = 0x2F then some e
  else if e = 0x62 then some 0x08
  else if e = 0x66 then some 0x0C
  else if e = 0x6E then some 0x0A
  else if e = 0x72 then some 0x0D
  else if e = 0x74 then some 0x09
  else none

/-- Put decoded bytes before the result of the rest of the string. -/
def andThen (bytes : GoString) (r : Option (GoString × GoString)) :
    Option (GoString × GoString) :=
  r.map (fun p => (bytes ++ p.1, p.2))

/-- The text of a JSON string after its opening quote, decoded as the
function `unquote` of `encoding/json` does: up to the closing quote, with
the text after it. A control character or a wrong escape is an error
(`none`); `\uXXXX` is the rune with that number, two of them a surrogate
pair, a lone surrogate is U+FFFD; bytes that are not valid UTF-8 become
U+FFFD. The first argument bounds the number of steps. -/
def unquoteLoop : Nat → GoString → Option (GoString × GoString)
  | _, [] => none
  | 0, _ :: _ => none
  | n + 1, c :: rest =>
    if c = 0x22 then some ([], rest)
    else if c = 0x5C then
      match rest with
      | [] => none
      | e :: rest' =>
        if e = 0x75 then
          match getu4 rest' with
          | none => none
          | some rr =>
            if 0xD800 ≤ rr ∧ rr < 0xE000 then
              match (if rr < 0xDC00 ∧ (rest'.drop 4).take 2 = [0x5C, 0x75]
                  then getu4 (rest'.drop 6) else none) with
              | some rr1 =>
                if 0xDC00 ≤ rr1 ∧ rr1 < 0xE000 then
                  andThen (encodeRune ((rr - 0xD800) * 1024 + (rr1 - 0xDC00) + 0x10000))
                    (unquoteLoop n (rest'.drop 10))
                else andThen (encodeRune RuneError) (unquoteLoop n (rest'.drop 4))
              | none => andThen (encodeRune RuneError) (unquoteLoop n (rest'.drop 4))
            else andThen (encodeRune rr) (unquoteLoop n (rest'.drop 4))
        else
          match unescape e with
          | some b => andThen [b] (unquoteLoop n rest')
          | none => none
    else if c < 0x20 then none
    else if c < 0x80 then andThen [c] (unquoteLoop n rest)
    else
      let (rr, size) := decodeRune (c :: rest)
      andThen (encodeRune rr) (unquoteLoop n ((c :: rest).drop size))

/-- A JSON string at the head of a text: the Go string it stands for and the
text after it. -/
def parseString (s : GoString) : Option (GoString × GoString) :=
  match s with
  | [] => none
  | c :: rest => if c = 0x22 then unquoteLoop rest.length rest else none

/-- The white space of JSON (`isSpace`). -/
def isSpace (c : Nat) : Bool := c == 0x20 || c == 0x09 || c == 0x0D || c == 0x0A

/-- Drop the white space at the head of a text. -/
def skipSpace : GoString → GoString
  | [] => []
  | c :: rest => if isSpace c then skipSpace rest else c :: rest

/-- The members of an object whose values are strings, from the first member
name to the closing brace, stored in a map as `json.Unmarshal` does for a
`map[string]string` (a later member replaces an earlier one of the same
name); the text after the brace is returned too. The first argument bounds
the number of members. -/
def parseMembers : Nat → GoString → GoMap → Option (GoMap × GoString)
  | 0, _, _ => none
  | n + 1, s, m =>
    match parseString s with
    | none => none
    | some (k, s) =>
      match skipSpace s with
      | [] => none
      | c :: s =>
        if c = 0x3A then
          match parseString (skipSpace s) with
          | none => none
          | some (v, s) =>
            match skipSpace s with
            | [] => none
            | c :: s =>
              if c = 0x2C then parseMembers n (skipSpace s) (m.set k v)
              else if c = 0x7D then some (m.set k v, s)
              else none
        else none

/-- Decode a JSON text as a `map[string]string` (`json.Unmarshal`): the text
must be one object whose member values are strings, with white space around
it at most. -/
def decodeStringMap (data : GoString) : Option GoMap :=
  match skipSpace data with
  | [] => none
  | c :: s =>
    if c = 0x7B then
      match skipSpace s with
      | [] => none
      | c' :: s' =>
        if c' = 0x7D then (if skipSpace s' = [] then some GoMap.empty else none)
        else
          match parseMembers s.length (c' :: s') GoMap.empty with
          | some (m, rest) => if skipSpace rest = [] then some m else none
          | none => none
    else none

/-- The member that a line of an indented object stands for, when its
values are strings: after four spaces a JSON string (the name), a colon and a
space, a JSON string (the value), and at most a comma; both strings decoded
as `parseString` does. -/
def parseMemberLine (line : GoString) : Option (GoString × GoString) :=
  if line.take 4 = [0x20, 0x20, 0x20, 0x20] then
    match parseString (line.drop 4) with
    | none => none
    | some (k, rest) =>
      if rest.take 2 = [0x3A, 0x20] then
        match parseString (rest.drop 2) with
        | none => none
        | some (v, rest') => if rest' = [] ∨ rest' = [0x2C] then some (k, v) else none
      else none
  else none

/-- A store with two items whose names are single bytes that are no
UTF-8. -/
def collidingStore : GoMap := (GoMap.empty.set [0xFF] (ascii "1")).set [0xFE] (ascii "2")

/-- A store whose item has a byte that is no UTF-8. -/
def brokenStore : GoMap := GoMap.empty.set (ascii "k") [0xFF]

/-- Another store: the byte of the item differs. -/
def brokenStore' : GoMap := GoMap.empty.set (ascii "k") [0xFE]

/-- A store with quotes, control characters, `<`, `>`, `&` and runes of
two, three and four bytes in its item. -/
def specialStore : GoMap :=
  GoMap.empty.set (ascii "a<b>.txt")
    (ascii "say \"hi\" & <go>\n\t\\ \x01\x08\x7f" ++
      [0xC3, 0xA9, 0xE2, 0x82, 0xAC, 0xE2, 0x80, 0xA8, 0xF0, 0x9F, 0x98, 0x80, 0xEF, 0xBF, 0xBD])

/-! ## The handlers -/

/-- An `http.ResponseWriter`: the status code of the header once it is
written, the bytes of the body written so far, and the error that `Write`
returns when the connection to the client is broken. -/
structure ResponseWriter where
  status : Option Nat
  body : GoString
  broken : Option Errno
  deriving DecidableEq

/-- The writer that a handler receives. -/
def ResponseWriter.fresh (broken : Option Errno) : ResponseWriter := ⟨none, [], broken⟩

/-- The method `Write`: the header goes out with status 200 if no header was
written, then the bytes are added to the body unless the connection is
broken. -/
def ResponseWriter.Write (w : ResponseWriter) (p : GoString) : ResponseWriter × Option Errno :=
  let w := { w with status := some (w.status.getD 200) }
  match w.broken with
  | some e => (w, some e)
  | none => ({ w with body := w.body ++ p }, none)

/-- An `http.Request`, as far as the server looks at it. -/
structure Request where
  method : GoString
  path : GoString
  deriving DecidableEq

/-- The function `writeJSONResponse` (main.go:133-137): a new encoder with
an indent of four spaces writes the value in one `Write`, whose error it
returns. -/
def writeJSONResponse (w : ResponseWriter) (v : GoValue) : ResponseWriter × Option Errno :=
  w.Write (encode v)

/-- An `http.HandlerFunc`. -/
abbrev Handler := ResponseWriter → Request → Outcome ResponseWriter

/-- The function `configHandler` (main.go:43-52). -/
def configHandler (config : GoMap) : Handler := fun w _req =>
  match writeJSONResponse w (.strMap config) with
  | (_, some err) => .fatal err
  | (w, none) => .returned w

/-- A Go `error`: the text of `Error()` and the value it holds, which is
what `encoding/json` encodes. -/
structure GoError where
  description : GoString
  value : GoValue

/-- The type `PingResult` (main.go:54-57). -/
structure PingResult where
  Value : GoString
  Err : Option GoError

/-- The struct as `reflect` presents it: the exported fields `Value` and
`Err` with the tags `json:"value,omitempty"` and `json:"error,omitempty"`;
`Err` is an interface. -/
def PingResult.toValue (r : PingResult) : GoValue :=
  .struct [
    (ascii "value", true, true, .str r.Value),
    (ascii "error", true, true, .ptr (r.Err.map GoError.value))]

/-- The fields of `redis.Options` that `pingHandler` sets. -/
structure RedisOptions where
  Addr : GoString
  Password : GoString

/-- The cache service as a client sees it: the result of
`rdb.Ping(ctx).Result()` for a client with the given options. -/
abbrev Cache := RedisOptions → GoString × Option GoError

/-- The options of the client that `pingHandler` builds from the store
(main.go:62-65). -/
def redisOptions (config : GoMap) : RedisOptions :=
  { Addr := config.index (ascii "DB_HOST"), Password := config.index (ascii "redis-password") }

/-- The function `pingHandler` (main.go:60-82): the client is made once,
every request runs one probe and writes its result as a `PingResult`. -/
def pingHandler (config : GoMap) (cache : Cache) : Handler :=
  let rdb : RedisOptions := redisOptions config
  fun w _req =>
    let (value, pingError) := cache rdb
    let pingResult : PingResult := { Value := value, Err := pingError }
    match writeJSONResponse w pingResult.toValue with
    | (_, some err) => .fatal err
    | (w, none) => .returned w

/-- The function `s3Handler` (main.go:84-96): it lists the buckets and logs
the result; nothing is written to the response. -/
def s3Handler (_config : GoMap) : Handler := fun w _req => .returned w

/-- The handler of `/` (main.go:33-35): `fmt.Fprint(w, index)`, the error
of the write is dropped. -/
def indexHandler (index : GoString) : Handler := fun w _req =>
  .returned (w.Write index).1

/-- The registrations of `main` (main.go:29-35): pattern and handler. -/
def registrations (index : GoString) (config : GoMap) (cache : Cache) :
    List (GoString × Handler) :=
  [(ascii "/config", configHandler config),
   (ascii "/ping", pingHandler config cache),
   (ascii "/s3", s3Handler config),
   (ascii "/", indexHandler index)]

/-- The handler registered for a pattern. -/
def handlerAt (pattern : GoString) (regs : List (GoString × Handler)) : Option Handler :=
  (regs.find? (fun r => r.1 = pattern)).map Prod.snd

/-- The function `main` (main.go:26-40) up to `http.ListenAndServe`: read
the configuration, which may end the process, and register the handlers. -/
def main (index : GoString) (root : Root) (cache : Cache) :
    Outcome (List (GoString × Handler)) :=
  match readConfig root with
  | .fatal e => .fatal e
  | .returned config => .returned (registrations index config cache)

/-- The value of `errors.New(text)`: a pointer to a struct whose one field,
`s`, is not exported. -/
def errorsNew (text : GoString) : GoError :=
  ⟨text, .ptr (some (.struct [(ascii "s", false, false, .str text)]))⟩

/-- An error reply of the Redis server, `proto.RedisError`: a string type. -/
def redisError (text : GoString) : GoError := ⟨text, .str text⟩

/-- The error of a refused connection to `127.0.0.1:6379`: a `*net.OpError`
for the dial, over an `*os.SyscallError` for `connect`, over the error number
`ECONNREFUSED` (111). The address is a `*net.TCPAddr`, whose `IP` is written
as text by its `MarshalText`. -/
def connectionRefused : GoError :=
  ⟨ascii "dial tcp 127.0.0.1:6379: connect: connection refused",
   .ptr (some (.struct [
     (ascii "Op", true, false, .str (ascii "dial")),
     (ascii "Net", true, false, .str (ascii "tcp")),
     (ascii "Source", true, false, .ptr none),
     (ascii "Addr", true, false, .ptr (some (.struct [
       (ascii "IP", true, false, .str (ascii "127.0.0.1")),
       (ascii "Port", true, false, .int 6379),
       (ascii "Zone", true, false, .str [])]))),
     (ascii "Err", true, false, .ptr (some (.struct [
       (ascii "Syscall", true, false, .str (ascii "connect")),
       (ascii "Err", true, false, .int 111)])))]))⟩

/-! ## The shape of a response body -/

/-- The lines of a text: the bytes between line feeds. -/
def lines (text : GoString) : List GoString := text.splitOn 0x0A

/-- The text of a member whose value is a string: the name as a JSON string,
a colon and a space, the value as a JSON string. -/
def memberText (kv : GoString × GoString) : GoString :=
  appendString kv.1 ++ [0x3A, 0x20] ++ appendString kv.2

/-- One line for each member: four spaces, the member, and a comma unless
the member is the last one. -/
def memberLines : List (GoString × GoString) → List GoString
  | [] => []
  | kv :: rest =>
    ([0x20, 0x20, 0x20, 0x20] ++ memberText kv ++ (if rest = [] then [] else [0x2C])) ::
      memberLines rest

/-- The lines of the body for an object with the given members, after the
final line feed an empty line: `{}` without member, else an opening brace,
the members, a closing brace. -/
def bodyLines (members : List (GoString × GoString)) : List GoString :=
  if members = [] then [[0x7B, 0x7D], []]
  else [[0x7B]] ++ memberLines members ++ [[0x7D], []]

/-- The store with the items `a.txt` and `b.txt`, stored in this order. -/
def sampleStore : GoMap :=
  (GoMap.empty.set (ascii "a.txt") (ascii "1")).set (ascii "b.txt") (ascii "2")

/-- Strict order of two named items by their names. -/
def nameLt {α : Type} (a b : GoString × α) : Prop := strLt a.1 b.1 = true

/-- What the closures of `main` hold while the server runs: the map built by
`readConfig` and the embedded page. -/
structure Process where
  config : GoMap
  index : GoString

/-- One request served by `http.DefaultServeMux` with the registrations of
`main`, for a request whose path is clean: the handler of the pattern equal
to the path, else the handler of `/`. (A path that is not clean, such as
`//config`, is answered by the multiplexer itself with a redirect and
reaches no handler; such requests are not described here.) No handler
assigns to the map or to the page. -/
def Process.serve (p : Process) (cache : Cache) (w : ResponseWriter) (req : Request) :
    Outcome (Process × ResponseWriter) :=
  let regs := registrations p.index p.config cache
  let found :=
    match handlerAt req.path regs with
    | some h => some h
    | none => handlerAt (ascii "/") regs
  match found with
  | some h =>
    match h w req with
    | .returned w => .returned (p, w)
    | .fatal e => .fatal e
  | none => .returned (p, w)

/-- A cache that answers every probe with `PONG`. -/
def pongCache : Cache := fun _ => (ascii "PONG", none)

/-- A cache whose probe fails with an error made by `errors.New`. -/
def refusedCache : Cache := fun _ => ([], some (errorsNew (ascii "connection refused")))

/-- A cache that cannot be reached: the dial is refused. -/
def unreachableCache : Cache := fun _ => ([], some connectionRefused)

/-- A request for `/config`. -/
def getConfig : Request := ⟨ascii "GET", ascii "/config"⟩

/-- A request for `/ping`. -/
def getPing : Request := ⟨ascii "GET", ascii "/ping"⟩

/-- A cache whose reply is one byte that is no UTF-8. -/
def invalidReplyCache : Cache := fun _ => ([0xFF], none)

/-- A cache with another such reply. -/
def invalidReplyCache' : Cache := fun _ => ([0xFE], none)

/-! ## Go maps -/

theorem GoMap.get_empty (k : GoString) : GoMap.empty.get k = none := rfl

theorem find?_filter_ne (l : List (GoString × GoString)) (k k' : GoString) (h : ¬ k' = k) :
    (l.filter (fun p => p.1 ≠ k)).find? (fun p => p.1 = k') = l.find? (fun p => p.1 = k') := by
  induction l with
  | nil => rfl
  | cons p l ih =>
    by_cases hp : p.1 = k
    · have hk : ¬ p.1 = k' := fun e => h (e.symm.trans hp)
      rw [List.filter_cons_of_neg (by simpa using hp), List.find?_cons_of_neg _ (by simpa using hk)]
      exact ih
    · rw [List.filter_cons_of_pos (by simpa using hp)]
      by_cases hp' : p.1 = k'
      · rw [List.find?_cons_of_pos _ (by simpa using hp'), List.find?_cons_of_pos _ (by simpa using hp')]
      · rw [List.find?_cons_of_neg _ (by simpa using hp'), List.find?_cons_of_neg _ (by simpa using hp')]
        exact ih

theorem GoMap.get_set (m : GoMap) (k v k' : GoString) :
    (m.set k v).get k' = if k' = k then some v else m.get k' := by
  unfold GoMap.get GoMap.set
  by_cases h : k' = k
  · subst h
    simp
  · have h' : ¬ k = k' := fun e => h e.symm
    simp only [h, if_false]
    rw [List.find?_cons_of_neg _ (by simpa using h'), find?_filter_ne _ _ _ h]

theorem GoMap.mem_keys_iff (m : GoMap) (k : GoString) :
    k ∈ m.keys ↔ ∃ v, m.get k = some v := by
  unfold GoMap.keys GoMap.get
  induction m.entries with
  | nil => simp
  | cons p l ih =>
    by_cases hp : p.1 = k
    · simp [hp]
    · have hp' : ¬ k = p.1 := fun e => hp e.symm
      rw [List.map_cons, List.mem_cons, List.find?_cons_of_neg _ (by simpa using hp)]
      simp only [hp', false_or]
      exact ih

/-! ## Sorting by name -/

theorem orderedInsert_map {α β : Type} (g : GoString × α → β) (a : GoString × α)
    (l : List (GoString × α)) :
    List.orderedInsert nameLe (a.1, g a) (l.map (fun p => (p.1, g p))) =
      (List.orderedInsert nameLe a l).map (fun p => (p.1, g p)) := by
  induction l with
  | nil => rfl
  | cons b l ih =>
    simp only [List.map_cons, List.orderedInsert]
    by_cases h : nameLe a b
    · have h' : nameLe (a.1, g a) (b.1, g b) := h
      rw [if_pos h, if_pos h']
      rfl
    · have h' : ¬ nameLe (a.1, g a) (b.1, g b) := h
      rw [if_neg h, if_neg h', List.map_cons, ih]

theorem sortByName_map {α β : Type} (g : GoString × α → β) (l : List (GoString × α)) :
    sortByName (l.map (fun p => (p.1, g p))) = (sortByName l).map (fun p => (p.1, g p)) := by
  induction l with
  | nil => rfl
  | cons a l ih =>
    unfold sortByName at ih ⊢
    rw [List.map_cons, List.insertionSort, ih, orderedInsert_map]
    rfl

theorem sortByName_perm {α : Type} (l : List (GoString × α)) : (sortByName l).Perm l :=
  List.perm_insertionSort _ l

/-! ## The walk -/

theorem walkEntries_eq (entries : List Entry) :
    walkEntries entries = entries.map (fun p => (p.1, walkDir p.1 p.2.1 p.2.2)) := by
  induction entries with
  | nil => rfl
  | cons p l ih =>
    obtain ⟨n, s, nd⟩ := p
    rw [walkEntries, ih]
    rfl

theorem orderEntries_eq (entries : List Entry) :
    orderEntries entries = entries.map (fun p => (p.1, walkOrder p.1 p.2.1 p.2.2)) := by
  induction entries with
  | nil => rfl
  | cons p l ih =>
    obtain ⟨n, s, nd⟩ := p
    rw [orderEntries, ih]
    rfl

theorem walkOrder_dir (name : GoString) (lstat readDir : Option Errno) (entries : List Entry) :
    walkOrder name lstat (.dir readDir entries) =
      (name, lstat, .dir readDir entries) ::
        ((sortByName entries).map (fun p => walkOrder p.1 p.2.1 p.2.2)).flatten := by
  rw [walkOrder, orderEntries_eq, sortByName_map, List.map_map]
  rfl

theorem scan_append (l₁ l₂ : List Entry) (config : GoMap) :
    scan (l₁ ++ l₂) config =
      match scan l₁ config with
      | (c, some e) => (c, some e)
      | (c, none) => scan l₂ c := by
  induction l₁ generalizing config with
  | nil => rfl
  | cons e l ih =>
    simp only [List.cons_append, scan]
    cases entryFault e with
    | some err => rfl
    | none =>
      cases entryFile e with
      | none => exact ih config
      | some kv => exact ih _

theorem runWalks_eq_scan (l : List Entry)
    (h : ∀ p ∈ l, walkDir p.1 p.2.1 p.2.2 = scan (walkOrder p.1 p.2.1 p.2.2)) (config : GoMap) :
    runWalks (l.map (fun p => (p.1, walkDir p.1 p.2.1 p.2.2))) config =
      scan ((l.map (fun p => walkOrder p.1 p.2.1 p.2.2)).flatten) config := by
  induction l generalizing config with
  | nil => rfl
  | cons p l ih =>
    rw [List.map_cons, List.map_cons, List.flatten_cons, scan_append, runWalks,
      h p (List.mem_cons_self _ _)]
    have ih' := fun c => ih (fun q hq => h q (List.mem_cons_of_mem _ hq)) c
    rcases scan (walkOrder p.1 p.2.1 p.2.2) config with ⟨c, _ | e⟩
    · exact ih' c
    · rfl

mutual
theorem walkDir_eq_scan : ∀ (node : Node) (name : GoString) (lstat : Option Errno),
    walkDir name lstat node = scan (walkOrder name lstat node)
  | .dir readDir entries, name, lstat => by
    have ih := walkEntries_eq_scan entries
    funext config
    rw [walkOrder_dir, walkDir]
    cases lstat with
    | some e => rfl
    | none =>
      cases readDir with
      | some e => rfl
      | none =>
        simp only [walkFn, scan, entryFault, entryFile]
        rw [walkEntries_eq, sortByName_map]
        exact runWalks_eq_scan _ (fun p hp => ih p ((sortByName_perm entries).mem_iff.1 hp)) config
  | .regular r, name, lstat => by
    funext config
    cases lstat <;> cases r <;> rfl
  | .symlink t, name, lstat => by
    funext config
    cases lstat <;> rfl
  | .irregular, name, lstat => by
    funext config
    cases lstat <;> rfl
theorem walkEntries_eq_scan : ∀ (entries : List Entry), ∀ p ∈ entries,
    walkDir p.1 p.2.1 p.2.2 = scan (walkOrder p.1 p.2.1 p.2.2)
  | [], _, hp => absurd hp (List.not_mem_nil _)
  | (n, s, nd) :: rest, p, hp => by
    rcases List.mem_cons.1 hp with rfl | h
    · exact walkDir_eq_scan nd n s
    · exact walkEntries_eq_scan rest p h
end

/-! ## The order of names -/

theorem strLt_irrefl (a : GoString) : strLt a a = false := by
  induction a with
  | nil => rfl
  | cons x a ih => simp [strLt, ih]

theorem strLt_asymm : ∀ (a b : GoString), strLt a b = true → strLt b a = false
  | [], [], h => by simp [strLt] at h
  | [], _ :: _, _ => rfl
  | _ :: _, [], h => by simp [strLt] at h
  | x :: a, y :: b, h => by
    simp only [strLt] at h ⊢
    by_cases h1 : x < y
    · have h2 : ¬ y < x := by omega
      simp [h1, h2]
    · by_cases h2 : y < x
      · simp [h1, h2] at h
      · simp only [h1, h2, if_false] at h ⊢
        exact strLt_asymm a b h

theorem strLt_trichotomy : ∀ (a b : GoString), strLt a b = false → strLt b a = false → a = b
  | [], [], _, _ => rfl
  | [], _ :: _, h, _ => by simp [strLt] at h
  | _ :: _, [], _, h => by simp [strLt] at h
  | x :: a, y :: b, h, h' => by
    simp only [strLt] at h h'
    by_cases h1 : x < y
    · simp [h1] at h
    · by_cases h2 : y < x
      · simp [h2] at h'
      · simp only [h1, h2, if_false] at h h'
        have hxy : x = y := by omega
        rw [hxy, strLt_trichotomy a b h h']

theorem strLt_trans : ∀ (a b c : GoString), strLt a b = true → strLt b c = true →
    strLt a c = true
  | [], _, [], _, h => by cases ‹GoString› <;> simp [strLt] at h
  | [], _, _ :: _, _, _ => rfl
  | _ :: _, [], _, h, _ => by simp [strLt] at h
  | _ :: _, _ :: _, [], _, h => by simp [strLt] at h
  | x :: a, y :: b, z :: c, h, h' => by
    simp only [strLt] at h h' ⊢
    by_cases h1 : x < y
    · by_cases h2 : y < z
      · have : x < z := by omega
        simp [this]
      · by_cases h3 : z < y
        · simp [h2, h3] at h'
        · have : x < z := by omega
          simp [this]
    · by_cases h1' : y < x
      · simp [h1, h1'] at h
      · simp only [h1, h1', if_false] at h
        have hxy : x = y := by omega
        subst hxy
        by_cases h2 : x < z
        · simp [h2]
        · by_cases h3 : z < x
          · simp [h2, h3] at h'
          · simp only [h2, h3, if_false] at h' ⊢
            exact strLt_trans a b c h h'

theorem strLe_total (a b : GoString) : strLe a b = true ∨ strLe b a = true := by
  unfold strLe
  cases h : strLt b a
  · exact Or.inl rfl
  · exact Or.inr (by rw [strLt_asymm b a h]; rfl)

theorem strLe_trans (a b c : GoString) (h : strLe a b = true) (h' : strLe b c = true) :
    strLe a c = true := by
  unfold strLe at *
  have hba : strLt b a = false := by simpa using h
  have hcb : strLt c b = false := by simpa using h'
  cases hca : strLt c a
  · rfl
  · cases hbc : strLt b c
    · have e1 := strLt_trichotomy c b hcb hbc
      subst e1
      rw [hca] at hba
      cases hba
    · rw [strLt_trans b c a hbc hca] at hba
      cases hba

instance nameLe_total {α : Type} : IsTotal (GoString × α) nameLe :=
  ⟨fun a b => strLe_total a.1 b.1⟩

instance nameLe_trans {α : Type} : IsTrans (GoString × α) nameLe :=
  ⟨fun a b c => strLe_trans a.1 b.1 c.1⟩

theorem sortByName_sorted {α : Type} (l : List (GoString × α)) :
    (sortByName l).Sorted nameLe :=
  List.sorted_insertionSort _ l

/-! ## What the walk visits -/

theorem walkOrder_top (name : GoString) (lstat : Option Errno) (node : Node) :
    (name, lstat, node) ∈ walkOrder name lstat node := by
  cases node <;> simp [walkOrder]

mutual
theorem inTree_of_mem_walkOrder : ∀ (node : Node) (name : GoString) (lstat : Option Errno)
    (e : Entry), e ∈ walkOrder name lstat node → InTree name lstat node e
  | .dir readDir entries, name, lstat, e, h => by
    have ih := inTree_of_mem_entries entries
    rw [walkOrder_dir, List.mem_cons] at h
    rcases h with rfl | h
    · exact InTree.top _ _ _
    · obtain ⟨l, hl, he⟩ := List.mem_flatten.1 h
      obtain ⟨p, hp, rfl⟩ := List.mem_map.1 hl
      have hp' := (sortByName_perm entries).mem_iff.1 hp
      exact InTree.under _ _ _ _ p e hp' (ih p hp' e he)
  | .regular r, name, lstat, e, h => by
    rw [walkOrder, List.mem_singleton] at h
    subst h
    exact InTree.top _ _ _
  | .symlink t, name, lstat, e, h => by
    rw [walkOrder, List.mem_singleton] at h
    subst h
    exact InTree.top _ _ _
  | .irregular, name, lstat, e, h => by
    rw [walkOrder, List.mem_singleton] at h
    subst h
    exact InTree.top _ _ _
theorem inTree_of_mem_entries : ∀ (entries : List Entry), ∀ p ∈ entries, ∀ e,
    e ∈ walkOrder p.1 p.2.1 p.2.2 → InTree p.1 p.2.1 p.2.2 e
  | [], _, hp, _, _ => absurd hp (List.not_mem_nil _)
  | (n, s, nd) :: rest, p, hp, e, he => by
    rcases List.mem_cons.1 hp with rfl | h
    · exact inTree_of_mem_walkOrder nd n s e he
    · exact inTree_of_mem_entries rest p h e he
end

theorem mem_walkOrder_of_inTree (name : GoString) (lstat : Option Errno) (node : Node)
    (e : Entry) (h : InTree name lstat node e) : e ∈ walkOrder name lstat node := by
  induction h with
  | top name lstat node => exact walkOrder_top name lstat node
  | under name lstat readDir entries p e hp _ ih =>
    rw [walkOrder_dir]
    refine List.mem_cons_of_mem _ (List.mem_flatten.2 ⟨_, ?_, ih⟩)
    exact List.mem_map.2 ⟨p, (sortByName_perm entries).mem_iff.2 hp, rfl⟩

theorem mem_walkOrder_iff (root : Root) (e : Entry) : e ∈ root.walkOrder ↔ root.InTree e := by
  cases root with
  | failed err => simp [Root.walkOrder, Root.InTree]
  | present lstat node =>
    exact ⟨inTree_of_mem_walkOrder node _ lstat e, mem_walkOrder_of_inTree _ lstat node e⟩

/-! ## What the walk stores -/

theorem scan_eq_loaded (l : List Entry) (config : GoMap) :
    scan l config =
      (setAll config ((l.takeWhile (fun e => (entryFault e).isNone)).filterMap entryFile),
        (l.filterMap entryFault).head?) := by
  induction l generalizing config with
  | nil => rfl
  | cons e l ih =>
    rw [scan]
    cases hf : entryFault e with
    | some err => simp [List.takeWhile, hf, setAll, List.filterMap_cons]
    | none =>
      cases hv : entryFile e with
      | none => simp [List.takeWhile, hf, hv, List.filterMap_cons, ih]
      | some kv => simp [List.takeWhile, hf, hv, List.filterMap_cons, ih, setAll]

theorem WalkDir_eq (root : Root) :
    WalkDir root GoMap.empty = (root.loaded, root.faults.head?) := by
  cases root with
  | failed e => rfl
  | present lstat node =>
    show walkDir rootName lstat node GoMap.empty = _
    rw [walkDir_eq_scan, scan_eq_loaded]
    rfl

theorem get_setAll (files : List (GoString × GoString)) (config : GoMap) (k : GoString) :
    (setAll config files).get k =
      match files.reverse.find? (fun p => p.1 = k) with
      | some kv => some kv.2
      | none => config.get k := by
  induction files generalizing config with
  | nil => rfl
  | cons kv files ih =>
    have e : setAll config (kv :: files) = setAll (config.set kv.1 kv.2) files := rfl
    rw [e, ih, List.reverse_cons, List.find?_append]
    cases files.reverse.find? (fun p => p.1 = k) with
    | some q => rfl
    | none =>
      rw [GoMap.get_set]
      by_cases h : k = kv.1
      · have h' : kv.1 = k := h.symm
        simp [h, List.find?_cons]
      · have h' : ¬ kv.1 = k := fun e => h e.symm
        simp [h, h', List.find?_cons]

theorem takeWhile_of_no_fault (l : List Entry) (h : l.filterMap entryFault = []) :
    l.takeWhile (fun e => (entryFault e).isNone) = l := by
  induction l with
  | nil => rfl
  | cons e l ih =>
    rw [List.filterMap_cons] at h
    cases hf : entryFault e with
    | some err => rw [hf] at h; cases h
    | none =>
      rw [hf] at h
      simp [List.takeWhile, hf, ih h]

theorem no_fault_of_mem (l : List Entry) (h : l.filterMap entryFault = []) (e : Entry)
    (he : e ∈ l) : entryFault e = none := by
  cases hf : entryFault e with
  | none => rfl
  | some err =>
    have : err ∈ l.filterMap entryFault := List.mem_filterMap.2 ⟨e, he, hf⟩
    rw [h] at this
    cases this

theorem entryFile_eq_some (e : Entry) (k v : GoString) :
    entryFile e = some (k, v) ↔ e = (k, none, .regular (.ok v)) := by
  obtain ⟨n, s, nd⟩ := e
  constructor
  · intro h
    cases s with
    | some err => simp [entryFile] at h
    | none =>
      cases nd with
      | regular r =>
        cases r with
        | error err => simp [entryFile] at h
        | ok c =>
          simp only [entryFile, Option.some.injEq, Prod.mk.injEq] at h
          rw [h.1, h.2]
      | symlink t => simp [entryFile] at h
      | irregular => simp [entryFile] at h
      | dir rd es => simp [entryFile] at h
  · intro h
    rw [h]
    rfl

theorem regular_no_fault (e : Entry) (hf : entryFault e = none) (hr : e.2.2.isRegular = true) :
    ∃ v, entryFile e = some (e.1, v) := by
  obtain ⟨n, s, nd⟩ := e
  cases s with
  | some err => simp [entryFault] at hf
  | none =>
    cases nd with
    | regular r =>
      cases r with
      | error err => simp [entryFault] at hf
      | ok c => exact ⟨c, rfl⟩
    | symlink t => simp [Node.isRegular] at hr
    | irregular => simp [Node.isRegular] at hr
    | dir rd es => simp [Node.isRegular] at hr

/-! ## The claims on `readConfig` -/

theorem readConfig_eq (root : Root) :
    readConfig root =
      match root.faults.head? with
      | some err => if !err.isNotExist then .fatal err else .returned root.loaded
      | none => .returned root.loaded := by
  unfold readConfig
  rw [WalkDir_eq]
  cases root.faults.head? <;> rfl

theorem loaded_of_no_fault (root : Root) (h : root.faults = []) :
    root.loaded = setAll GoMap.empty (root.walkOrder.filterMap entryFile) := by
  cases root with
  | failed e => rfl
  | present lstat node =>
    unfold Root.loaded
    have h' : (Root.present lstat node).walkOrder.filterMap entryFault = [] := h
    rw [takeWhile_of_no_fault _ h']

theorem lastFile_eq_some (k v : GoString) (l : List Entry) :
    lastFile k l = some v → ∃ e ∈ l, entryFile e = some (k, v) := by
  intro h
  unfold lastFile at h
  obtain ⟨kv, hkv, rfl⟩ := Option.map_eq_some'.1 h
  have hk : kv.1 = k := by simpa using List.find?_some hkv
  have hm : kv ∈ l.filterMap entryFile := List.mem_reverse.1 (List.mem_of_find?_eq_some hkv)
  obtain ⟨e, he, hf⟩ := List.mem_filterMap.1 hm
  exact ⟨e, he, by rw [hf, ← hk]⟩

theorem lastFile_isSome (k v : GoString) (l : List Entry) (e : Entry) (he : e ∈ l)
    (hf : entryFile e = some (k, v)) : ∃ w, lastFile k l = some w := by
  unfold lastFile
  have hm : (k, v) ∈ (l.filterMap entryFile).reverse :=
    List.mem_reverse.2 (List.mem_filterMap.2 ⟨e, he, hf⟩)
  cases hfind : (l.filterMap entryFile).reverse.find? (fun p => p.1 = k) with
  | some kv => exact ⟨kv.2, rfl⟩
  | none =>
    have := List.find?_eq_none.1 hfind (k, v) hm
    simp at this

/-- C1: for a tree without file system error, `readConfig` returns a map
whose keys are exactly the base names of the regular files of the tree
(directories, symbolic links and other entries give no key, and a tree
without regular file gives the empty map); the value of a key is the content of
the last regular file with that base name in the walk order, which lists an
entry before the entries below it and the entries of a directory sorted by
name. -/
theorem readConfig_loads_regular_files (root : Root) (h : root.faults = []) :
    ∃ config, readConfig root = .returned config ∧
      (∀ k, k ∈ config.keys ↔ ∃ e, root.InTree e ∧ e.2.2.isRegular = true ∧ e.1 = k) ∧
      (∀ k, config.get k = lastFile k root.walkOrder) ∧
      ((∀ e, root.InTree e → e.2.2.isRegular = false) → config = GoMap.empty) ∧
      (∀ e, e ∈ root.walkOrder ↔ root.InTree e) ∧
      (∀ name lstat readDir entries,
        walkOrder name lstat (.dir readDir entries) =
            (name, lstat, .dir readDir entries) ::
              ((sortByName entries).map (fun p => walkOrder p.1 p.2.1 p.2.2)).flatten ∧
          (sortByName entries).Sorted nameLe ∧ (sortByName entries).Perm entries) := by
  have hget : ∀ k, root.loaded.get k = lastFile k root.walkOrder := by
    intro k
    rw [loaded_of_no_fault root h, get_setAll, GoMap.get_empty]
    unfold lastFile
    cases (root.walkOrder.filterMap entryFile).reverse.find? (fun p => p.1 = k) <;> rfl
  have hnf : ∀ e ∈ root.walkOrder, entryFault e = none := by
    cases root with
    | failed e => intro e he; cases he
    | present lstat node => exact no_fault_of_mem _ h
  refine ⟨root.loaded, ?_, ?_, hget, ?_, mem_walkOrder_iff root, ?_⟩
  · rw [readConfig_eq, h]
    rfl
  · intro k
    rw [GoMap.mem_keys_iff]
    constructor
    · rintro ⟨v, hv⟩
      rw [hget] at hv
      obtain ⟨e, he, hf⟩ := lastFile_eq_some k v _ hv
      rw [(entryFile_eq_some e k v).1 hf] at he
      exact ⟨_, (mem_walkOrder_iff root _).1 he, rfl, rfl⟩
    · rintro ⟨e, he, hr, rfl⟩
      have he' := (mem_walkOrder_iff root e).2 he
      obtain ⟨v, hv⟩ := regular_no_fault e (hnf e he') hr
      obtain ⟨w, hw⟩ := lastFile_isSome e.1 v _ e he' hv
      exact ⟨w, by rw [hget, hw]⟩
  · intro hno
    rw [loaded_of_no_fault root h]
    have : root.walkOrder.filterMap entryFile = [] := by
      apply List.eq_nil_iff_forall_not_mem.2
      intro kv hkv
      obtain ⟨e, he, hf⟩ := List.mem_filterMap.1 hkv
      have hr := hno e ((mem_walkOrder_iff root e).1 he)
      rw [(entryFile_eq_some e kv.1 kv.2).1 hf] at hr
      simp [Node.isRegular] at hr
    rw [this]
    rfl
  · intro name lstat readDir entries
    exact ⟨walkOrder_dir name lstat readDir entries, sortByName_sorted entries,
      sortByName_perm entries⟩

/-- C1 at a tree with two files named `z`, a symbolic link and an empty
directory. -/
theorem readConfig_loads_regular_files_witness :
    sampleTree.faults = [] ∧
    ∃ config, readConfig sampleTree = .returned config ∧
      (∀ k, k ∈ config.keys ↔ ∃ e, sampleTree.InTree e ∧ e.2.2.isRegular = true ∧ e.1 = k) ∧
      (∀ k, config.get k = lastFile k sampleTree.walkOrder) ∧
      ((∀ e, sampleTree.InTree e → e.2.2.isRegular = false) → config = GoMap.empty) ∧
      (∀ e, e ∈ sampleTree.walkOrder ↔ sampleTree.InTree e) ∧
      (∀ name lstat readDir entries,
        walkOrder name lstat (.dir readDir entries) =
            (name, lstat, .dir readDir entries) ::
              ((sortByName entries).map (fun p => walkOrder p.1 p.2.1 p.2.2)).flatten ∧
          (sortByName entries).Sorted nameLe ∧ (sortByName entries).Perm entries) :=
  ⟨by decide, readConfig_loads_regular_files sampleTree (by decide)⟩

/-- C2: when the root directory does not exist the walk reports the
not-exist error of the root, `readConfig` swallows it and returns the empty
map instead of ending the process. -/
theorem readConfig_missing_root :
    WalkDir (.failed .ENOENT) GoMap.empty = (GoMap.empty, some .ENOENT) ∧
    Errno.ENOENT.isNotExist = true ∧
    readConfig (.failed .ENOENT) = .returned GoMap.empty ∧
    GoMap.empty.keys = [] := by
  refine ⟨rfl, rfl, rfl, rfl⟩

/-- C3 does not hold as stated: in `vanishedEntryTree` the root exists and
the scan fails (`os.Lstat` on the entry `b`), yet `readConfig` does not end
the process and returns the map filled so far. -/
theorem readConfig_returns_after_vanished_entry :
    ¬ ((∃ e, readConfig vanishedEntryTree = .fatal e) ↔
        (vanishedEntryTree.faults ≠ [] ∧ vanishedEntryTree.missing = false)) ∧
    vanishedEntryTree.faults = [.ENOENT] ∧
    readConfig vanishedEntryTree = .returned (GoMap.empty.set (ascii "a") (ascii "1")) := by
  have h : readConfig vanishedEntryTree =
      .returned (GoMap.empty.set (ascii "a") (ascii "1")) := by decide
  refine ⟨?_, by decide, h⟩
  intro hiff
  obtain ⟨e, he⟩ := hiff.2 ⟨by decide, rfl⟩
  rw [h] at he
  cases he

/-- C3, amended: `readConfig` ends the process exactly when the first error
that the scan meets, in walk order, is not a not-exist error, and then it
returns no map. When it returns, the map is the one filled by the entries
before the first error, and the scan met no error or its first error was a
not-exist error (of the root or of any other entry). -/
theorem readConfig_fatal_iff (root : Root) (err : Errno) :
    (readConfig root = .fatal err ↔
      root.faults.head? = some err ∧ err.isNotExist = false) ∧
    (∀ config, readConfig root = .returned config →
      config = root.loaded ∧
        (root.faults = [] ∨ ∃ e, root.faults.head? = some e ∧ e.isNotExist = true)) := by
  rw [readConfig_eq]
  cases hf : root.faults with
  | nil =>
    refine ⟨by simp, ?_⟩
    intro config hc
    simp only [List.head?_nil, Outcome.returned.injEq] at hc
    exact ⟨hc.symm, Or.inl rfl⟩
  | cons e l =>
    cases hne : e.isNotExist
    · refine ⟨?_, ?_⟩
      · simp only [List.head?_cons, hne, Bool.not_false, if_true, Outcome.fatal.injEq,
          Option.some.injEq]
        constructor
        · rintro rfl
          exact ⟨rfl, hne⟩
        · exact fun h => h.1
      · intro config hc
        simp [hne] at hc
    · refine ⟨?_, ?_⟩
      · simp only [List.head?_cons, hne, Bool.not_true, Option.some.injEq]
        constructor
        · intro h
          simp at h
        · rintro ⟨rfl, h⟩
          rw [hne] at h
          cases h
      · intro config hc
        simp only [List.head?_cons, hne, Bool.not_true, Outcome.returned.injEq] at hc
        simp at hc
        exact ⟨hc.symm, Or.inr ⟨e, rfl, hne⟩⟩

/-! ## UTF-8 -/

theorem first_cases (b : Nat) :
    first b = none ∨
    (first b = some (2, 0x80, 0xBF) ∧ 0xC2 ≤ b ∧ b ≤ 0xDF) ∨
    (∃ lo hi, first b = some (3, lo, hi) ∧ 0xE0 ≤ b ∧ b ≤ 0xEF ∧ 0x80 ≤ lo ∧ hi ≤ 0xBF ∧
      (b = 0xE0 → lo = 0xA0) ∧ (b = 0xED → hi = 0x9F)) ∨
    (∃ lo hi, first b = some (4, lo, hi) ∧ 0xF0 ≤ b ∧ b ≤ 0xF4 ∧ 0x80 ≤ lo ∧ hi ≤ 0xBF ∧
      (b = 0xF0 → lo = 0x90) ∧ (b = 0xF4 → hi = 0x8F)) := by
  unfold first
  by_cases h1 : 0xC2 ≤ b ∧ b ≤ 0xDF
  · rw [if_pos h1]
    exact Or.inr (Or.inl ⟨rfl, h1.1, h1.2⟩)
  rw [if_neg h1]
  by_cases h2 : b = 0xE0
  · rw [if_pos h2]
    refine Or.inr (Or.inr (Or.inl ⟨_, _, rfl, ?_⟩)); omega
  rw [if_neg h2]
  by_cases h3 : 0xE1 ≤ b ∧ b ≤ 0xEC
  · rw [if_pos h3]
    refine Or.inr (Or.inr (Or.inl ⟨_, _, rfl, ?_⟩)); omega
  rw [if_neg h3]
  by_cases h4 : b = 0xED
  · rw [if_pos h4]
    refine Or.inr (Or.inr (Or.inl ⟨_, _, rfl, ?_⟩)); omega
  rw [if_neg h4]
  by_cases h5 : 0xEE ≤ b ∧ b ≤ 0xEF
  · rw [if_pos h5]
    refine Or.inr (Or.inr (Or.inl ⟨_, _, rfl, ?_⟩)); omega
  rw [if_neg h5]
  by_cases h6 : b = 0xF0
  · rw [if_pos h6]
    refine Or.inr (Or.inr (Or.inr ⟨_, _, rfl, ?_⟩)); omega
  rw [if_neg h6]
  by_cases h7 : 0xF1 ≤ b ∧ b ≤ 0xF3
  · rw [if_pos h7]
    refine Or.inr (Or.inr (Or.inr ⟨_, _, rfl, ?_⟩)); omega
  rw [if_neg h7]
  by_cases h8 : b = 0xF4
  · rw [if_pos h8]
    refine Or.inr (Or.inr (Or.inr ⟨_, _, rfl, ?_⟩)); omega
  rw [if_neg h8]
  exact Or.inl rfl

theorem decodeMulti_short (sz lo hi s0 : Nat) (rest : GoString) (h : rest.length + 1 < sz) :
    decodeMulti sz lo hi s0 rest = (RuneError, 1) := by
  rw [decodeMulti, if_pos h]

theorem decodeMulti_two (lo hi s0 s1 : Nat) (t : GoString) :
    decodeMulti 2 lo hi s0 (s1 :: t) =
      if s1 < lo ∨ hi < s1 then (RuneError, 1) else (s0 % 32 * 64 + s1 % 64, 2) := by
  rw [decodeMulti, if_neg (by simp)]
  dsimp only [List.getD_cons_zero]
  rw [if_pos (Nat.le_refl 2)]

theorem decodeMulti_three (lo hi s0 s1 s2 : Nat) (t : GoString) :
    decodeMulti 3 lo hi s0 (s1 :: s2 :: t) =
      if s1 < lo ∨ hi < s1 then (RuneError, 1)
      else if s2 < 0x80 ∨ 0xBF < s2 then (RuneError, 1)
      else (s0 % 16 * 4096 + s1 % 64 * 64 + s2 % 64, 3) := by
  rw [decodeMulti, if_neg (by simp)]
  dsimp only [List.getD_cons_zero, List.getD_cons_succ]
  rw [if_neg (show ¬ 3 ≤ 2 by decide), if_pos (Nat.le_refl 3)]

theorem decodeMulti_four (lo hi s0 s1 s2 s3 : Nat) (t : GoString) :
    decodeMulti 4 lo hi s0 (s1 :: s2 :: s3 :: t) =
      if s1 < lo ∨ hi < s1 then (RuneError, 1)
      else if s2 < 0x80 ∨ 0xBF < s2 then (RuneError, 1)
      else if s3 < 0x80 ∨ 0xBF < s3 then (RuneError, 1)
      else (s0 % 8 * 262144 + s1 % 64 * 4096 + s2 % 64 * 64 + s3 % 64, 4) := by
  rw [decodeMulti, if_neg (by simp)]
  dsimp only [List.getD_cons_zero, List.getD_cons_succ]
  rw [if_neg (show ¬ 4 ≤ 2 by decide), if_neg (show ¬ 4 ≤ 3 by decide)]

/-- The shapes of a valid sequence of two to four bytes at the head of a
string, with the rune it encodes. -/
theorem decodeRune_cases (s0 : Nat) (rest : GoString) (h0 : ¬ s0 < 0x80) :
    decodeRune (s0 :: rest) = (RuneError, 1) ∨
    (∃ s1 r, rest = s1 :: r ∧ 0xC2 ≤ s0 ∧ s0 ≤ 0xDF ∧ 0x80 ≤ s1 ∧ s1 ≤ 0xBF ∧
      ∀ t, decodeRune (s0 :: s1 :: t) = (s0 % 32 * 64 + s1 % 64, 2)) ∨
    (∃ s1 s2 r, rest = s1 :: s2 :: r ∧ 0xE0 ≤ s0 ∧ s0 ≤ 0xEF ∧ 0x80 ≤ s1 ∧ s1 ≤ 0xBF ∧
      (s0 = 0xE0 → 0xA0 ≤ s1) ∧ (s0 = 0xED → s1 ≤ 0x9F) ∧ 0x80 ≤ s2 ∧ s2 ≤ 0xBF ∧
      ∀ t, decodeRune (s0 :: s1 :: s2 :: t) = (s0 % 16 * 4096 + s1 % 64 * 64 + s2 % 64, 3)) ∨
    (∃ s1 s2 s3 r, rest = s1 :: s2 :: s3 :: r ∧ 0xF0 ≤ s0 ∧ s0 ≤ 0xF4 ∧ 0x80 ≤ s1 ∧ s1 ≤ 0xBF ∧
      (s0 = 0xF0 → 0x90 ≤ s1) ∧ (s0 = 0xF4 → s1 ≤ 0x8F) ∧ 0x80 ≤ s2 ∧ s2 ≤ 0xBF ∧
      0x80 ≤ s3 ∧ s3 ≤ 0xBF ∧
      ∀ t, decodeRune (s0 :: s1 :: s2 :: s3 :: t) =
        (s0 % 8 * 262144 + s1 % 64 * 4096 + s2 % 64 * 64 + s3 % 64, 4)) := by
  have hd : ∀ t, decodeRune (s0 :: t) =
      match first s0 with
      | none => (RuneError, 1)
      | some (sz, lo, hi) => decodeMulti sz lo hi s0 t := by
    intro t
    rw [decodeRune, if_neg h0]
  rcases first_cases s0 with h | ⟨h, h1, h2⟩ | ⟨lo, hi, h, h1, h2, h3, h4, h5, h6⟩ |
      ⟨lo, hi, h, h1, h2, h3, h4, h5, h6⟩
  · rw [hd, h]; exact Or.inl rfl
  · rcases rest with _ | ⟨s1, r⟩
    · rw [hd, h]; exact Or.inl rfl
    · by_cases hr : s1 < 0x80 ∨ 0xBF < s1
      · left
        rw [hd, h]
        show decodeMulti 2 0x80 0xBF s0 (s1 :: r) = _
        rw [decodeMulti_two, if_pos hr]
      · right; left
        refine ⟨s1, r, rfl, h1, h2, by omega, by omega, fun t => ?_⟩
        rw [hd, h]
        show decodeMulti 2 0x80 0xBF s0 (s1 :: t) = _
        rw [decodeMulti_two, if_neg hr]
  · rcases rest with _ | ⟨s1, _ | ⟨s2, r⟩⟩
    · rw [hd, h]; exact Or.inl (decodeMulti_short _ _ _ _ _ (by simp))
    · rw [hd, h]; exact Or.inl (decodeMulti_short _ _ _ _ _ (by simp))
    · by_cases hr : s1 < lo ∨ hi < s1
      · left
        rw [hd, h]
        show decodeMulti 3 lo hi s0 (s1 :: s2 :: r) = _
        rw [decodeMulti_three, if_pos hr]
      · by_cases hr2 : s2 < 0x80 ∨ 0xBF < s2
        · left
          rw [hd, h]
          show decodeMulti 3 lo hi s0 (s1 :: s2 :: r) = _
          rw [decodeMulti_three, if_neg hr, if_pos hr2]
        · right; right; left
          refine ⟨s1, s2, r, rfl, h1, h2, by omega, by omega, fun e => by omega,
            fun e => by omega, by omega, by omega, fun t => ?_⟩
          rw [hd, h]
          show decodeMulti 3 lo hi s0 (s1 :: s2 :: t) = _
          rw [decodeMulti_three, if_neg hr, if_neg hr2]
  · rcases rest with _ | ⟨s1, _ | ⟨s2, _ | ⟨s3, r⟩⟩⟩
    · rw [hd, h]; exact Or.inl (decodeMulti_short _ _ _ _ _ (by simp))
    · rw [hd, h]; exact Or.inl (decodeMulti_short _ _ _ _ _ (by simp))
    · rw [hd, h]; exact Or.inl (decodeMulti_short _ _ _ _ _ (by simp))
    · by_cases hr : s1 < lo ∨ hi < s1
      · left
        rw [hd, h]
        show decodeMulti 4 lo hi s0 (s1 :: s2 :: s3 :: r) = _
        rw [decodeMulti_four, if_pos hr]
      · by_cases hr2 : s2 < 0x80 ∨ 0xBF < s2
        · left
          rw [hd, h]
          show decodeMulti 4 lo hi s0 (s1 :: s2 :: s3 :: r) = _
          rw [decodeMulti_four, if_neg hr, if_pos hr2]
        · by_cases hr3 : s3 < 0x80 ∨ 0xBF < s3
          · left
            rw [hd, h]
            show decodeMulti 4 lo hi s0 (s1 :: s2 :: s3 :: r) = _
            rw [decodeMulti_four, if_neg hr, if_neg hr2, if_pos hr3]
          · right; right; right
            refine ⟨s1, s2, s3, r, rfl, h1, h2, by omega, by omega, fun e => by omega,
              fun e => by omega, by omega, by omega, by omega, by omega, fun t => ?_⟩
            rw [hd, h]
            show decodeMulti 4 lo hi s0 (s1 :: s2 :: s3 :: t) = _
            rw [decodeMulti_four, if_neg hr, if_neg hr2, if_neg hr3]

theorem decodeRune_valid (s0 : Nat) (rest : GoString) (h0 : ¬ s0 < 0x80) :
    decodeRune (s0 :: rest) = (RuneError, 1) ∨
    ∃ seq r c, s0 :: rest = seq ++ r ∧ IsRune seq c := by
  rcases decodeRune_cases s0 rest h0 with h | ⟨s1, r, rfl, h1, h2, h3, h4, hd⟩ |
      ⟨s1, s2, r, rfl, h1, h2, h3, h4, h5, h6, h7, h8, hd⟩ |
      ⟨s1, s2, s3, r, rfl, h1, h2, h3, h4, h5, h6, h7, h8, h9, h10, hd⟩
  · exact Or.inl h
  · refine Or.inr ⟨[s0, s1], r, _, rfl, by simp, by simp, ?_, hd, ?_⟩
    · intro x hx
      simp only [List.mem_cons, List.mem_singleton, List.not_mem_nil, or_false] at hx
      omega
    · unfold encodeRune
      rw [if_neg (by omega), if_pos (by omega)]
      congr 1
      · omega
      · congr 1
        omega
  · refine Or.inr ⟨[s0, s1, s2], r, _, rfl, by simp, by simp, ?_, hd, ?_⟩
    · intro x hx
      simp only [List.mem_cons, List.mem_singleton, List.not_mem_nil, or_false] at hx
      omega
    · unfold encodeRune
      rw [if_neg (by omega), if_neg (by omega), if_neg (by omega), if_pos (by omega)]
      congr 1
      · omega
      · congr 1
        · omega
        · congr 1
          omega
  · refine Or.inr ⟨[s0, s1, s2, s3], r, _, rfl, by simp, by simp, ?_, hd, ?_⟩
    · intro x hx
      simp only [List.mem_cons, List.mem_singleton, List.not_mem_nil, or_false] at hx
      omega
    · unfold encodeRune
      rw [if_neg (by omega), if_neg (by omega), if_neg (by omega), if_neg (by omega)]
      congr 1
      · omega
      · congr 1
        · omega
        · congr 1
          · omega
          · congr 1
            omega

/-! ## JSON strings -/

theorem appendStringLoop_ascii (n b : Nat) (rest : GoString) (h : b < 0x80) :
    appendStringLoop (n + 1) (b :: rest) =
      (if htmlSafeSet b then [b] else escapeByte b) ++ appendStringLoop n rest := by
  rw [appendStringLoop, if_pos h]

theorem appendStringLoop_invalid (n b : Nat) (rest : GoString) (h0 : ¬ b < 0x80)
    (hd : decodeRune (b :: rest) = (RuneError, 1)) :
    appendStringLoop (n + 1) (b :: rest) =
      [0x5C, 0x75, 0x66, 0x66, 0x66, 0x64] ++ appendStringLoop n rest := by
  rw [appendStringLoop, if_neg h0, hd]
  simp

theorem appendStringLoop_rune (n : Nat) (seq r : GoString) (c : Nat) (h : IsRune seq c) :
    appendStringLoop (n + 1) (seq ++ r) =
      (if c = 0x2028 ∨ c = 0x2029 then [0x5C, 0x75, 0x32, 0x30, 0x32, hex (c % 16)] else seq) ++
        appendStringLoop n r := by
  have hd := h.decode r
  have hl := h.length_ge
  rcases seq with _ | ⟨b, seq'⟩
  · simp at hl
  · have hb : ¬ b < 0x80 := by
      have := h.high b (List.mem_cons_self _ _)
      omega
    rw [List.cons_append] at hd ⊢
    rw [appendStringLoop, if_neg hb, hd]
    have hne : ¬ (c = RuneError ∧ (b :: seq').length = 1) := by
      intro hh
      omega
    simp only [hne, if_false]
    rw [← List.cons_append, List.drop_left, List.take_left]
    split_ifs <;> rfl

/-- The bound of `appendStringLoop` is never reached: any two bounds that
are at least the length of the string give the same text. -/
theorem appendStringLoop_bound (n : Nat) :
    ∀ (m : Nat) (s : GoString), s.length ≤ n → s.length ≤ m →
      appendStringLoop n s = appendStringLoop m s := by
  induction n with
  | zero =>
    intro m s hn _
    have : s = [] := List.length_eq_zero.1 (by omega)
    subst this
    cases m <;> rfl
  | succ n ih =>
    intro m s hn hm
    rcases s with _ | ⟨b, s⟩
    · cases m <;> rfl
    · obtain ⟨m, rfl⟩ : ∃ g, m = g + 1 := ⟨m - 1, by simp at hm; omega⟩
      simp only [List.length_cons] at hn hm
      by_cases h0 : b < 0x80
      · rw [appendStringLoop_ascii n b s h0, appendStringLoop_ascii m b s h0,
          ih m s (by omega) (by omega)]
      · rcases decodeRune_valid b s h0 with hd | ⟨seq, r, c, hsr, hr⟩
        · rw [appendStringLoop_invalid n b s h0 hd, appendStringLoop_invalid m b s h0 hd,
            ih m s (by omega) (by omega)]
        · have hl := hr.length_ge
          have hlen : seq.length + r.length = s.length + 1 := by
            have := congrArg List.length hsr
            simp only [List.length_cons, List.length_append] at this
            omega
          rw [hsr, appendStringLoop_rune n seq r c hr, appendStringLoop_rune m seq r c hr,
            ih m r (by omega) (by omega)]

theorem hex_ge (n : Nat) : 0x30 ≤ hex n := by
  unfold hex
  split_ifs <;> omega

theorem escapeByte_ge (b x : Nat) (hx : x ∈ escapeByte b) : 0x20 ≤ x := by
  unfold escapeByte at hx
  have h1 := hex_ge (b / 16)
  have h2 := hex_ge (b % 16)
  split_ifs at hx with c1 c2 c3 c4 c5 c6 <;>
    simp only [List.mem_cons, List.mem_singleton, List.not_mem_nil, or_false] at hx <;>
    omega

theorem htmlSafeSet_ge (b : Nat) (h : htmlSafeSet b = true) : 0x20 ≤ b := by
  unfold htmlSafeSet at h
  simp only [Bool.and_eq_true, decide_eq_true_eq] at h
  exact h.1.1.1.1.1.1

/-- A JSON string written by `appendString` holds no control character, so
no line break. -/
theorem appendStringLoop_ge (n : Nat) (s : GoString) :
    ∀ x ∈ appendStringLoop n s, 0x20 ≤ x := by
  induction n generalizing s with
  | zero => cases s <;> simp [appendStringLoop]
  | succ n ih =>
    rcases s with _ | ⟨b, rest⟩
    · simp [appendStringLoop]
    · by_cases h0 : b < 0x80
      · rw [appendStringLoop_ascii n b rest h0]
        intro x hx
        rcases List.mem_append.1 hx with hx | hx
        · by_cases hs : htmlSafeSet b = true
          · rw [if_pos hs, List.mem_singleton] at hx
            rw [hx]
            exact htmlSafeSet_ge b hs
          · rw [if_neg hs] at hx
            exact escapeByte_ge b x hx
        · exact ih rest x hx
      · rcases decodeRune_valid b rest h0 with hd | ⟨seq, r, c, hs, hr⟩
        · rw [appendStringLoop_invalid n b rest h0 hd]
          intro x hx
          rcases List.mem_append.1 hx with hx | hx
          · simp only [List.mem_cons, List.mem_singleton, List.not_mem_nil, or_false] at hx
            omega
          · exact ih rest x hx
        · rw [hs, appendStringLoop_rune n seq r c hr]
          intro x hx
          rcases List.mem_append.1 hx with hx | hx
          · have h1 := hex_ge (c % 16)
            split_ifs at hx
            · simp only [List.mem_cons, List.mem_singleton, List.not_mem_nil, or_false] at hx
              omega
            · have := hr.high x hx
              omega
          · exact ih r x hx

theorem appendString_ge (s : GoString) : ∀ x ∈ appendString s, 0x20 ≤ x := by
  intro x hx
  unfold appendString at hx
  rcases List.mem_cons.1 hx with hx | hx
  · omega
  · rcases List.mem_append.1 hx with hx | hx
    · exact appendStringLoop_ge _ s x hx
    · rw [List.mem_singleton] at hx
      omega

/-! ## The text of an object of strings -/

theorem intercalate_singleton (sep a : GoString) : sep.intercalate [a] = a := by
  simp [List.intercalate]

theorem intercalate_cons_cons (sep a b : GoString) (l : List GoString) :
    sep.intercalate (a :: b :: l) = a ++ sep ++ sep.intercalate (b :: l) := by
  simp [List.intercalate, List.intersperse]

theorem intercalate_append (sep : GoString) (l₁ l₂ : List GoString) (h₁ : l₁ ≠ [])
    (h₂ : l₂ ≠ []) :
    sep.intercalate (l₁ ++ l₂) = sep.intercalate l₁ ++ sep ++ sep.intercalate l₂ := by
  induction l₁ with
  | nil => exact absurd rfl h₁
  | cons a l ih =>
    rcases l with _ | ⟨b, l⟩
    · rcases l₂ with _ | ⟨c, l₂⟩
      · exact absurd rfl h₂
      · rw [List.singleton_append, intercalate_cons_cons, intercalate_singleton]
    · rw [List.cons_append, List.cons_append, intercalate_cons_cons, ← List.cons_append,
        ih (List.cons_ne_nil _ _), intercalate_cons_cons]
      simp only [List.append_assoc]

theorem renderMembers_strings (kv : GoString × GoString) (rest : List (GoString × GoString)) :
    newline 1 ++ renderMembers 1 ((kv :: rest).map (fun kv => (kv.1, JValue.string kv.2))) =
      [0x0A] ++ [0x0A].intercalate (memberLines (kv :: rest)) := by
  induction rest generalizing kv with
  | nil =>
    simp [renderMembers, render, memberLines, memberText, newline, intercalate_singleton]
  | cons kv' rest ih =>
    have e : memberLines (kv :: kv' :: rest) =
        ([0x20, 0x20, 0x20, 0x20] ++ memberText kv ++ [0x2C]) :: memberLines (kv' :: rest) := by
      simp [memberLines]
    have e' : memberLines (kv' :: rest) =
        ([0x20, 0x20, 0x20, 0x20] ++ memberText kv' ++ (if rest = [] then [] else [0x2C])) ::
          memberLines rest := rfl
    rw [e, e', intercalate_cons_cons, ← e']
    have ih' := ih kv'
    rw [List.map_cons] at ih' ⊢
    rw [List.map_cons, renderMembers]
    simp only [render, List.append_assoc] at ih' ⊢
    rw [ih']
    simp [memberText, newline]

theorem render_object_strings (l : List (GoString × GoString)) :
    render 0 (.object (l.map (fun kv => (kv.1, JValue.string kv.2)))) ++ [0x0A] =
      [0x0A].intercalate (bodyLines l) := by
  unfold bodyLines
  rcases l with _ | ⟨kv, rest⟩
  · simp [render, List.intercalate, List.intersperse]
  · have hm := renderMembers_strings kv rest
    rw [List.map_cons] at hm
    rw [if_neg (List.cons_ne_nil _ _), List.map_cons, render]
    simp only [Nat.zero_add, List.append_assoc] at hm ⊢
    rw [← List.append_assoc (newline 1), hm]
    rw [intercalate_append _ _ _ (by simp) (by simp),
      intercalate_append _ _ _ (by simp [memberLines]) (by simp)]
    simp [newline, List.intercalate, List.intersperse]

theorem encode_strMap (config : GoMap) :
    encode (.strMap config) = [0x0A].intercalate (bodyLines (sortByName config.entries)) := by
  unfold encode
  rw [marshal]
  exact render_object_strings _

theorem memberText_ge (kv : GoString × GoString) : ∀ x ∈ memberText kv, 0x20 ≤ x := by
  intro x hx
  unfold memberText at hx
  rcases List.mem_append.1 hx with hx | hx
  · rcases List.mem_append.1 hx with hx | hx
    · exact appendString_ge _ x hx
    · simp only [List.mem_cons, List.mem_singleton, List.not_mem_nil, or_false] at hx
      omega
  · exact appendString_ge _ x hx

theorem memberLines_ge (members : List (GoString × GoString)) :
    ∀ l ∈ memberLines members, ∀ x ∈ l, 0x20 ≤ x := by
  induction members with
  | nil => intro l hl; cases hl
  | cons kv rest ih =>
    intro l hl x hx
    rw [memberLines, List.mem_cons] at hl
    rcases hl with rfl | hl
    · rcases List.mem_append.1 hx with hx | hx
      · rcases List.mem_append.1 hx with hx | hx
        · simp only [List.mem_cons, List.mem_singleton, List.not_mem_nil, or_false] at hx
          omega
        · exact memberText_ge kv x hx
      · split_ifs at hx
        · cases hx
        · rw [List.mem_singleton] at hx
          omega
    · exact ih l hl x hx

theorem bodyLines_no_newline (members : List (GoString × GoString)) :
    ∀ l ∈ bodyLines members, (0x0A : Nat) ∉ l := by
  intro l hl hx
  unfold bodyLines at hl
  split_ifs at hl
  · simp only [List.mem_cons, List.mem_singleton, List.not_mem_nil, or_false] at hl
    rcases hl with rfl | rfl <;> simp at hx
  · rcases List.mem_append.1 hl with hl | hl
    · rcases List.mem_append.1 hl with hl | hl
      · rw [List.mem_singleton] at hl
        subst hl
        simp at hx
      · have := memberLines_ge members l hl _ hx
        omega
    · simp only [List.mem_cons, List.mem_singleton, List.not_mem_nil, or_false] at hl
      rcases hl with rfl | rfl <;> simp at hx

theorem lines_bodyLines (members : List (GoString × GoString)) :
    lines ([0x0A].intercalate (bodyLines members)) = bodyLines members := by
  unfold lines
  apply List.splitOn_intercalate _ _ (bodyLines_no_newline _)
  unfold bodyLines
  split_ifs <;> simp

theorem lines_encode_strMap (config : GoMap) :
    lines (encode (.strMap config)) = bodyLines (sortByName config.entries) := by
  rw [encode_strMap, lines_bodyLines]

theorem memberLines_length (members : List (GoString × GoString)) :
    (memberLines members).length = members.length := by
  induction members with
  | nil => rfl
  | cons kv rest ih => rw [memberLines, List.length_cons, ih, List.length_cons]

/-! ## The entries of a map in the order of their keys -/

theorem GoMap.mem_entries_iff (m : GoMap) (kv : GoString × GoString) :
    kv ∈ m.entries ↔ m.get kv.1 = some kv.2 := by
  obtain ⟨l, hl⟩ := m
  unfold GoMap.get
  simp only
  induction l with
  | nil => simp
  | cons p l ih =>
    rw [List.map_cons, List.nodup_cons] at hl
    by_cases hp : p.1 = kv.1
    · rw [List.find?_cons_of_pos _ (by simpa using hp), List.mem_cons]
      constructor
      · rintro (rfl | h)
        · rfl
        · exact absurd (hp ▸ List.mem_map_of_mem Prod.fst h) hl.1
      · intro h
        left
        simp only [Option.map_some', Option.some.injEq] at h
        exact (Prod.ext hp h).symm
    · rw [List.find?_cons_of_neg _ (by simpa using hp), List.mem_cons, ← ih hl.2]
      constructor
      · rintro (rfl | h)
        · exact absurd rfl hp
        · exact h
      · exact Or.inr

theorem entries_perm_of_get_eq (m m' : GoMap) (h : ∀ k, m.get k = m'.get k) :
    m.entries.Perm m'.entries := by
  rw [List.perm_ext_iff_of_nodup (List.Nodup.of_map _ m.nodup) (List.Nodup.of_map _ m'.nodup)]
  intro kv
  rw [GoMap.mem_entries_iff, GoMap.mem_entries_iff, h]

instance nameLt_antisymm {α : Type} : IsAntisymm (GoString × α) nameLt :=
  ⟨fun a b h h' => by
    have := strLt_asymm a.1 b.1 h
    rw [nameLt, this] at h'
    cases h'⟩

theorem sortByName_strict {α : Type} (l : List (GoString × α)) (h : (l.map Prod.fst).Nodup) :
    (sortByName l).Sorted nameLt := by
  have hs : (sortByName l).Pairwise nameLe := sortByName_sorted l
  have hn : (sortByName l).Pairwise (fun a b => a.1 ≠ b.1) := by
    have : ((sortByName l).map Prod.fst).Nodup :=
      (((sortByName_perm l).map Prod.fst).nodup_iff).2 h
    exact List.pairwise_map.1 this
  refine (hs.and hn).imp ?_
  rintro a b ⟨hle, hne⟩
  unfold nameLe strLe at hle
  unfold nameLt
  cases hab : strLt a.1 b.1
  · exact absurd (strLt_trichotomy a.1 b.1 hab (by simpa using hle)) hne
  · rfl

theorem sortByName_eq_of_get_eq (m m' : GoMap) (h : ∀ k, m.get k = m'.get k) :
    sortByName m.entries = sortByName m'.entries := by
  apply List.eq_of_perm_of_sorted (r := nameLt)
  · exact ((sortByName_perm _).trans (entries_perm_of_get_eq m m' h)).trans
      (sortByName_perm _).symm
  · exact sortByName_strict _ m.nodup
  · exact sortByName_strict _ m'.nodup

/-! ## Decoding what `appendString` writes -/

theorem validLoop_ascii (n b : Nat) (rest : GoString) (h : b < 0x80) :
    validLoop (n + 1) (b :: rest) = validLoop n rest := by
  have hd : decodeRune (b :: rest) = (b, 1) := by rw [decodeRune, if_pos h]
  rw [validLoop, hd]
  have hb : ¬ b = RuneError := by
    unfold RuneError
    omega
  simp [hb]

theorem validLoop_invalid (n b : Nat) (rest : GoString)
    (hd : decodeRune (b :: rest) = (RuneError, 1)) :
    validLoop (n + 1) (b :: rest) = false := by
  rw [validLoop, hd]
  simp

theorem validLoop_rune (n : Nat) (seq r : GoString) (c : Nat) (h : IsRune seq c) :
    validLoop (n + 1) (seq ++ r) = validLoop n r := by
  have hd := h.decode r
  have hl := h.length_ge
  rcases seq with _ | ⟨b, seq'⟩
  · simp at hl
  · rw [List.cons_append] at hd ⊢
    rw [validLoop, hd]
    have hne : ¬ (c = RuneError ∧ (b :: seq').length = 1) := by
      intro hh
      omega
    simp only [hne, if_false]
    rw [← List.cons_append, List.drop_left]

/-- The bound of `validLoop` is never reached: any two bounds that are at
least the length of the string give the same answer. -/
theorem validLoop_bound (n : Nat) :
    ∀ (m : Nat) (s : GoString), s.length ≤ n → s.length ≤ m →
      validLoop n s = validLoop m s := by
  induction n with
  | zero =>
    intro m s hn _
    have : s = [] := List.length_eq_zero.1 (by omega)
    subst this
    cases m <;> rfl
  | succ n ih =>
    intro m s hn hm
    rcases s with _ | ⟨b, s⟩
    · cases m <;> rfl
    · obtain ⟨m, rfl⟩ : ∃ g, m = g + 1 := ⟨m - 1, by simp at hm; omega⟩
      simp only [List.length_cons] at hn hm
      by_cases h0 : b < 0x80
      · rw [validLoop_ascii n b s h0, validLoop_ascii m b s h0, ih m s (by omega) (by omega)]
      · rcases decodeRune_valid b s h0 with hd | ⟨seq, r, c, hsr, hr⟩
        · rw [validLoop_invalid n b s hd, validLoop_invalid m b s hd]
        · have hl := hr.length_ge
          have hlen : seq.length + r.length = s.length + 1 := by
            have := congrArg List.length hsr
            simp only [List.length_cons, List.length_append] at this
            omega
          rw [hsr, validLoop_rune n seq r c hr, validLoop_rune m seq r c hr,
            ih m r (by omega) (by omega)]

theorem hexVal_hex (n : Nat) (h : n < 16) : hexVal (hex n) = some n := by
  unfold hex hexVal
  by_cases h1 : n < 10
  · rw [if_pos h1, if_pos (by omega)]
    congr 1
    omega
  · rw [if_neg h1, if_neg (by omega), if_pos (by omega)]
    congr 1
    omega

theorem unquoteLoop_quote (f : Nat) (rest : GoString) :
    unquoteLoop (f + 1) (0x22 :: rest) = some ([], rest) := by
  simp only [unquoteLoop, if_true]

theorem unquoteLoop_plain (f b : Nat) (t : GoString) (h1 : 0x20 ≤ b) (h2 : b < 0x80)
    (h3 : b ≠ 0x22) (h4 : b ≠ 0x5C) :
    unquoteLoop (f + 1) (b :: t) = andThen [b] (unquoteLoop f t) := by
  have h5 : ¬ b < 0x20 := by omega
  simp only [unquoteLoop, h3, h4, h5, h2, if_false, if_true]

theorem unquoteLoop_unescape (f e b : Nat) (t : GoString) (he : e ≠ 0x75)
    (hb : unescape e = some b) :
    unquoteLoop (f + 1) (0x5C :: e :: t) = andThen [b] (unquoteLoop f t) := by
  simp only [unquoteLoop, show ¬ ((0x5C : Nat) = 0x22) by decide, if_false, if_true, he, hb]

theorem unquoteLoop_u (f : Nat) (a b c d rr : Nat) (t : GoString)
    (hg : getu4 (a :: b :: c :: d :: t) = some rr) (hs : ¬ (0xD800 ≤ rr ∧ rr < 0xE000)) :
    unquoteLoop (f + 1) (0x5C :: 0x75 :: a :: b :: c :: d :: t) =
      andThen (encodeRune rr) (unquoteLoop f t) := by
  simp only [unquoteLoop, show ¬ ((0x5C : Nat) = 0x22) by decide, if_false, if_true, hg, hs]
  rfl

theorem unquoteLoop_escape (f b : Nat) (t : GoString) (hb : b < 0x80) :
    unquoteLoop (f + 1) (escapeByte b ++ t) = andThen [b] (unquoteLoop f t) := by
  unfold escapeByte
  by_cases c1 : b = 0x5C ∨ b = 0x22
  · rw [if_pos c1]
    exact unquoteLoop_unescape f b b t (by omega) (by
      unfold unescape
      rw [if_pos (by omega)])
  rw [if_neg c1]
  by_cases c2 : b = 0x08
  · rw [if_pos c2, c2]
    exact unquoteLoop_unescape f _ _ t (by decide) (by decide)
  rw [if_neg c2]
  by_cases c3 : b = 0x0C
  · rw [if_pos c3, c3]
    exact unquoteLoop_unescape f _ _ t (by decide) (by decide)
  rw [if_neg c3]
  by_cases c4 : b = 0x0A
  · rw [if_pos c4, c4]
    exact unquoteLoop_unescape f _ _ t (by decide) (by decide)
  rw [if_neg c4]
  by_cases c5 : b = 0x0D
  · rw [if_pos c5, c5]
    exact unquoteLoop_unescape f _ _ t (by decide) (by decide)
  rw [if_neg c5]
  by_cases c6 : b = 0x09
  · rw [if_pos c6, c6]
    exact unquoteLoop_unescape f _ _ t (by decide) (by decide)
  rw [if_neg c6]
  have hg : getu4 (0x30 :: 0x30 :: hex (b / 16) :: hex (b % 16) :: t) = some b := by
    unfold getu4
    simp only
    rw [show hexVal 0x30 = some 0 by decide, hexVal_hex _ (by omega), hexVal_hex _ (by omega)]
    simp only [Option.some.injEq]
    omega
  have := unquoteLoop_u f 0x30 0x30 (hex (b / 16)) (hex (b % 16)) b t hg (by omega)
  rw [show encodeRune b = [b] by unfold encodeRune; rw [if_pos hb]] at this
  exact this

theorem unquoteLoop_rune (f : Nat) (seq t : GoString) (c : Nat) (h : IsRune seq c) :
    unquoteLoop (f + 1) (seq ++ t) = andThen seq (unquoteLoop f t) := by
  have hd := h.decode t
  have hl := h.length_ge
  rcases seq with _ | ⟨b, seq'⟩
  · simp at hl
  · have hb := h.high b (List.mem_cons_self _ _)
    rw [List.cons_append] at hd ⊢
    have h1 : ¬ b = 0x22 := by omega
    have h2 : ¬ b = 0x5C := by omega
    have h3 : ¬ b < 0x20 := by omega
    have h4 : ¬ b < 0x80 := by omega
    simp only [unquoteLoop, h1, h2, h3, h4, if_false, hd]
    rw [← List.cons_append, List.drop_left, h.encode]

theorem unquoteLoop_sep (f c : Nat) (t : GoString) (hc : c = 0x2028 ∨ c = 0x2029) :
    unquoteLoop (f + 1) ([0x5C, 0x75, 0x32, 0x30, 0x32, hex (c % 16)] ++ t) =
      andThen (encodeRune c) (unquoteLoop f t) := by
  exact unquoteLoop_u f _ _ _ _ c t (by rcases hc with rfl | rfl <;> rfl) (by omega)

theorem andThen_some (bytes s rest : GoString) :
    andThen bytes (some (s, rest)) = some (bytes ++ s, rest) := rfl

/-- Decoding the JSON string that `appendString` writes for a valid UTF-8
string gives the string back. -/
theorem unquoteLoop_appendStringLoop (n : Nat) (s : GoString) (hv : validLoop n s = true)
    (f : Nat) (rest : GoString) (hf : (appendStringLoop n s).length < f) :
    unquoteLoop f (appendStringLoop n s ++ 0x22 :: rest) = some (s, rest) := by
  induction n generalizing s f with
  | zero =>
    rcases s with _ | ⟨b, s⟩
    · obtain ⟨f, rfl⟩ : ∃ g, f = g + 1 := ⟨f - 1, by omega⟩
      simp only [appendStringLoop, List.nil_append]
      exact unquoteLoop_quote f rest
    · simp [validLoop] at hv
  | succ n ih =>
    rcases s with _ | ⟨b, s⟩
    · obtain ⟨f, rfl⟩ : ∃ g, f = g + 1 := ⟨f - 1, by omega⟩
      simp only [appendStringLoop, List.nil_append]
      exact unquoteLoop_quote f rest
    · obtain ⟨f, rfl⟩ : ∃ g, f = g + 1 := ⟨f - 1, by omega⟩
      by_cases h0 : b < 0x80
      · rw [validLoop_ascii n b s h0] at hv
        rw [appendStringLoop_ascii n b s h0] at hf ⊢
        rw [List.append_assoc]
        by_cases hs : htmlSafeSet b = true
        · rw [if_pos hs] at hf ⊢
          have h20 := htmlSafeSet_ge b hs
          have h22 : b ≠ 0x22 := by
            rintro rfl
            revert hs
            decide
          have h5c : b ≠ 0x5C := by
            rintro rfl
            revert hs
            decide
          rw [List.singleton_append, unquoteLoop_plain f b _ h20 h0 h22 h5c,
            ih s hv f (by simp at hf; omega)]
          rfl
        · rw [if_neg hs] at hf ⊢
          have hlen : 0 < (escapeByte b).length := by
            unfold escapeByte
            split_ifs <;> simp
          rw [unquoteLoop_escape f b _ h0,
            ih s hv f (by rw [List.length_append] at hf; omega)]
          rfl
      · rcases decodeRune_valid b s h0 with hd | ⟨seq, r, c, hsr, hr⟩
        · rw [validLoop_invalid n b s hd] at hv
          cases hv
        · rw [hsr] at hv hf ⊢
          rw [validLoop_rune n seq r c hr] at hv
          rw [appendStringLoop_rune n seq r c hr] at hf ⊢
          rw [List.append_assoc]
          have hl := hr.length_ge
          by_cases hc : c = 0x2028 ∨ c = 0x2029
          · rw [if_pos hc] at hf ⊢
            rw [unquoteLoop_sep f c _ hc,
              ih r hv f (by rw [List.length_append] at hf; simp at hf; omega), hr.encode]
            rfl
          · rw [if_neg hc] at hf ⊢
            rw [unquoteLoop_rune f seq _ c hr,
              ih r hv f (by rw [List.length_append] at hf; omega)]
            rfl

theorem parseString_appendString (s rest : GoString) (hv : validString s = true) :
    parseString (appendString s ++ rest) = some (s, rest) := by
  simp only [appendString, parseString, List.cons_append, if_true, List.append_assoc,
    List.singleton_append]
  apply unquoteLoop_appendStringLoop _ _ hv
  simp

/-! ## Decoding the body of `/config` -/

theorem skipSpace_newline (d : Nat) (t : GoString) : skipSpace (newline d ++ t) = skipSpace t := by
  unfold newline
  rw [List.cons_append, skipSpace, if_pos (by decide)]
  induction (4 * d) with
  | zero => rfl
  | succ n ih => rw [List.replicate_succ, List.cons_append, skipSpace, if_pos (by decide), ih]

theorem skipSpace_cons (c : Nat) (t : GoString) (h : isSpace c = false) :
    skipSpace (c :: t) = c :: t := by
  rw [skipSpace, h]
  rfl

theorem skipSpace_appendString (s t : GoString) :
    skipSpace (appendString s ++ t) = appendString s ++ t := by
  show skipSpace (0x22 :: ((appendStringLoop s.length s ++ [0x22]) ++ t)) = _
  rw [skipSpace_cons _ _ (by decide)]
  rfl

theorem appendString_length (s : GoString) : 2 ≤ (appendString s).length := by
  unfold appendString
  simp

theorem renderMembers_cons (d : Nat) (k : GoString) (v : JValue)
    (rest : List (GoString × JValue)) :
    renderMembers d ((k, v) :: rest) =
      appendString k ++ ([0x3A, 0x20] ++ (render d v ++
        (match rest with
          | [] => []
          | _ :: _ => [0x2C] ++ (newline d ++ renderMembers d rest)))) := by
  rcases rest with _ | ⟨p, rest⟩ <;> simp [renderMembers]

theorem renderMembers_length (d : Nat) (l : List (GoString × GoString)) :
    l.length ≤ (renderMembers d (l.map (fun kv => (kv.1, JValue.string kv.2)))).length := by
  induction l with
  | nil => simp
  | cons kv rest ih =>
    rw [List.map_cons, renderMembers_cons]
    have := appendString_length kv.1
    rcases rest with _ | ⟨kv', rest⟩
    · simp only [List.map_nil, List.length_cons, List.length_nil, List.length_append]
      omega
    · simp only [List.map_cons, List.length_append, List.length_cons] at ih ⊢
      omega

theorem parseMembers_step (fuel : Nat) (k v t : GoString) (m : GoMap)
    (hk : validString k = true) (hv : validString v = true) :
    parseMembers (fuel + 1) (appendString k ++ ([0x3A, 0x20] ++ (appendString v ++ t))) m =
      match skipSpace t with
      | [] => none
      | c :: s =>
        if c = 0x2C then parseMembers fuel (skipSpace s) (m.set k v)
        else if c = 0x7D then some (m.set k v, s)
        else none := by
  rw [parseMembers, parseString_appendString _ _ hk]
  simp only [List.cons_append, List.nil_append]
  rw [skipSpace_cons _ _ (by decide)]
  simp only [if_true]
  rw [skipSpace, if_pos (by decide), skipSpace_appendString, parseString_appendString _ _ hv]

theorem parseMembers_rendered (rest : List (GoString × GoString)) :
    ∀ (kv : GoString × GoString) (m : GoMap) (fuel : Nat) (after : GoString),
    (∀ p ∈ kv :: rest, validString p.1 = true ∧ validString p.2 = true) →
    rest.length < fuel →
    parseMembers fuel
        (renderMembers 1 ((kv :: rest).map (fun kv => (kv.1, JValue.string kv.2))) ++
          (newline 0 ++ 0x7D :: after)) m =
      some (setAll m (kv :: rest), after) := by
  induction rest with
  | nil =>
    intro kv m fuel after hv hf
    obtain ⟨fuel, rfl⟩ : ∃ g, fuel = g + 1 := ⟨fuel - 1, by omega⟩
    have hk := (hv kv (List.mem_cons_self _ _)).1
    have hval := (hv kv (List.mem_cons_self _ _)).2
    rw [List.map_cons, List.map_nil, renderMembers_cons]
    simp only [render, List.append_nil, List.append_assoc]
    rw [parseMembers_step fuel _ _ _ m hk hval, skipSpace_newline,
      skipSpace_cons _ _ (by decide)]
    simp only [show ¬ ((0x7D : Nat) = 0x2C) by decide, if_false, if_true]
    rfl
  | cons kv' rest ih =>
    intro kv m fuel after hv hf
    obtain ⟨fuel, rfl⟩ : ∃ g, fuel = g + 1 := ⟨fuel - 1, by omega⟩
    have hk := (hv kv (List.mem_cons_self _ _)).1
    have hval := (hv kv (List.mem_cons_self _ _)).2
    have ih' := ih kv' (m.set kv.1 kv.2) fuel after
      (fun p hp => hv p (List.mem_cons_of_mem _ hp)) (by simp at hf; omega)
    rw [List.map_cons] at ih' ⊢
    rw [List.map_cons, renderMembers_cons]
    simp only [render, List.append_assoc]
    rw [parseMembers_step fuel _ _ _ m hk hval]
    simp only [List.cons_append, List.nil_append]
    rw [skipSpace_cons _ _ (by decide)]
    simp only [if_true]
    rw [skipSpace_newline, renderMembers_cons, List.append_assoc, skipSpace_appendString,
      ← List.append_assoc, ← renderMembers_cons]
    exact ih'

theorem find?_reverse_of_nodup (l : List (GoString × GoString)) (k : GoString)
    (h : (l.map Prod.fst).Nodup) :
    l.reverse.find? (fun p => p.1 = k) = l.find? (fun p => p.1 = k) := by
  induction l with
  | nil => rfl
  | cons a l ih =>
    rw [List.map_cons, List.nodup_cons] at h
    rw [List.reverse_cons, List.find?_append, ih h.2]
    by_cases ha : a.1 = k
    · have hn : l.find? (fun p => p.1 = k) = none := by
        apply List.find?_eq_none.2
        intro p hp hpk
        have hpk' : p.1 = k := by simpa using hpk
        exact h.1 (by rw [ha, ← hpk']; exact List.mem_map_of_mem Prod.fst hp)
      rw [hn, List.find?_cons_of_pos _ (by simpa using ha)]
      simp [ha]
    · simp [List.find?_cons, ha]

theorem get_setAll_sorted (config : GoMap) (k : GoString) :
    (setAll GoMap.empty (sortByName config.entries)).get k = config.get k := by
  have hp := sortByName_perm config.entries
  have hn : ((sortByName config.entries).map Prod.fst).Nodup :=
    ((hp.map Prod.fst).nodup_iff).2 config.nodup
  rw [get_setAll, find?_reverse_of_nodup _ _ hn, GoMap.get_empty]
  have hs : ∀ k, (GoMap.mk (sortByName config.entries) hn).get k = config.get k := by
    intro k
    cases hc : config.get k with
    | none =>
      cases hg : (GoMap.mk (sortByName config.entries) hn).get k with
      | none => rfl
      | some v =>
        have := (GoMap.mem_entries_iff (GoMap.mk (sortByName config.entries) hn) (k, v)).2 hg
        have := (GoMap.mem_entries_iff config (k, v)).1 (hp.mem_iff.1 this)
        rw [hc] at this
        cases this
    | some v =>
      have := (GoMap.mem_entries_iff config (k, v)).2 hc
      exact (GoMap.mem_entries_iff (GoMap.mk (sortByName config.entries) hn) (k, v)).1
        (hp.mem_iff.2 this)
  rw [← hs k]
  unfold GoMap.get
  simp only
  cases (sortByName config.entries).find? (fun p => p.1 = k) <;> rfl

theorem decodeStringMap_open (s s' : GoString) (c' : Nat) (hs : skipSpace s = c' :: s')
    (hc : ¬ c' = 0x7D) :
    decodeStringMap (0x7B :: s) =
      match parseMembers s.length (c' :: s') GoMap.empty with
      | some (m, rest) => if skipSpace rest = [] then some m else none
      | none => none := by
  unfold decodeStringMap
  rw [skipSpace_cons _ _ (by decide)]
  simp only [if_true, hs, hc, if_false]

theorem decodeStringMap_encode (config : GoMap)
    (hv : ∀ kv ∈ config.entries, validString kv.1 = true ∧ validString kv.2 = true) :
    decodeStringMap (encode (.strMap config)) =
      some (setAll GoMap.empty (sortByName config.entries)) := by
  have hv' : ∀ p ∈ sortByName config.entries, validString p.1 = true ∧ validString p.2 = true :=
    fun p hp => hv p ((sortByName_perm config.entries).mem_iff.1 hp)
  unfold encode
  rw [marshal]
  rcases h : sortByName config.entries with _ | ⟨kv, rest⟩
  · decide
  · rw [h] at hv'
    have hl := renderMembers_length 1 (kv :: rest)
    have he : render 0 (.object ((kv :: rest).map (fun kv => (kv.1, JValue.string kv.2)))) ++
        [0x0A] =
        0x7B :: (newline 1 ++
          (renderMembers 1 ((kv :: rest).map (fun kv => (kv.1, JValue.string kv.2))) ++
            (newline 0 ++ 0x7D :: [0x0A]))) := by
      rw [List.map_cons, render]
      simp only [Nat.zero_add, List.append_assoc, List.cons_append, List.nil_append]
    have hq : ∃ X, renderMembers 1 ((kv :: rest).map (fun kv => (kv.1, JValue.string kv.2))) ++
        (newline 0 ++ 0x7D :: [0x0A]) = 0x22 :: X := by
      rw [List.map_cons, renderMembers_cons]
      exact ⟨_, rfl⟩
    obtain ⟨X, hX⟩ := hq
    rw [he, decodeStringMap_open _ X 0x22 (by rw [skipSpace_newline, hX,
      skipSpace_cons _ _ (by decide)]) (by decide), ← hX,
      parseMembers_rendered rest kv GoMap.empty _ _ hv' (by
        simp only [List.length_append, List.length_cons] at hl ⊢
        omega)]
    rfl

/-! ## The member of a line -/

theorem parseMemberLine_memberText (kv : GoString × GoString) (c : GoString)
    (hc : c = [] ∨ c = [0x2C]) (hk : validString kv.1 = true) (hv : validString kv.2 = true) :
    parseMemberLine ([0x20, 0x20, 0x20, 0x20] ++ memberText kv ++ c) = some kv := by
  unfold parseMemberLine memberText
  have e1 : ([0x20, 0x20, 0x20, 0x20] ++ (appendString kv.1 ++ [0x3A, 0x20] ++ appendString kv.2) ++
      c).take 4 = [0x20, 0x20, 0x20, 0x20] := rfl
  have e2 : ([0x20, 0x20, 0x20, 0x20] ++ (appendString kv.1 ++ [0x3A, 0x20] ++ appendString kv.2) ++
      c).drop 4 = appendString kv.1 ++ (0x3A :: 0x20 :: (appendString kv.2 ++ c)) := by
    simp only [List.cons_append, List.nil_append, List.drop_succ_cons, List.drop_zero,
      List.append_assoc]
  rw [if_pos e1, e2, parseString_appendString _ _ hk]
  simp only [List.take_succ_cons, List.take_zero, if_true, List.drop_succ_cons, List.drop_zero]
  rw [parseString_appendString _ _ hv]
  simp only [hc, if_true]

theorem parseMemberLine_memberLines (members : List (GoString × GoString))
    (hv : ∀ kv ∈ members, validString kv.1 = true ∧ validString kv.2 = true) :
    (memberLines members).map parseMemberLine = members.map some := by
  induction members with
  | nil => rfl
  | cons kv rest ih =>
    rw [memberLines, List.map_cons, List.map_cons, ih (fun p hp => hv p (List.mem_cons_of_mem _ hp)),
      parseMemberLine_memberText kv _ (by split_ifs <;> simp) (hv kv (List.mem_cons_self _ _)).1
        (hv kv (List.mem_cons_self _ _)).2]

/-! ## The claims on the handlers -/

theorem configHandler_fresh (config : GoMap) (req : Request) :
    configHandler config (ResponseWriter.fresh none) req =
      .returned ⟨some 200, encode (.strMap config), none⟩ := rfl

/-- The body that `configHandler` writes, for any store: without item the
text `{}`, else an opening brace, one line for each item of the store and no
other, and a closing brace. The line of an item is four spaces, the JSON
string that `appendString` writes for the item name, a colon and a space, the
JSON string for the item content (and a comma between two items). -/
theorem configHandler_lines (config : GoMap) (req : Request) :
    ∃ w, configHandler config (ResponseWriter.fresh none) req = .returned w ∧
      w.status = some 200 ∧
      lines w.body = bodyLines (sortByName config.entries) ∧
      (∀ kv, kv ∈ sortByName config.entries ↔ config.get kv.1 = some kv.2) ∧
      (sortByName config.entries).Perm config.entries ∧
      (memberLines (sortByName config.entries)).length = config.len ∧
      (∀ kv rest, memberLines (kv :: rest) =
        ([0x20, 0x20, 0x20, 0x20] ++ (appendString kv.1 ++ [0x3A, 0x20] ++ appendString kv.2) ++
          (if rest = [] then [] else [0x2C])) :: memberLines rest) ∧
      (∀ s, ∃ t, appendString s = 0x22 :: t) ∧
      configHandler sampleStore (ResponseWriter.fresh none) req =
        .returned ⟨some 200,
          ascii "\x7b\n    \"a.txt\": \"1\",\n    \"b.txt\": \"2\"\n\x7d\n", none⟩ := by
  refine ⟨_, configHandler_fresh config req, rfl, lines_encode_strMap config, ?_,
    sortByName_perm _, ?_, fun kv rest => rfl, fun s => ⟨_, rfl⟩, ?_⟩
  · intro kv
    rw [(sortByName_perm config.entries).mem_iff, GoMap.mem_entries_iff]
  · rw [memberLines_length, (sortByName_perm config.entries).length_eq]
    rfl
  · rw [configHandler_fresh]
    decide

/-- C4 does not hold as stated: the store `collidingStore` has the items
`0xFF` and `0xFE`, and the body has two members that are both named U+FFFD:
no member has the name of an item, the name of the members is the name of no
item, and the object that the body stands for has one member, not two. -/
theorem configHandler_names_collide :
    configHandler collidingStore (ResponseWriter.fresh none) getConfig =
      .returned ⟨some 200,
        ascii "\x7b\n    \"\\ufffd\": \"2\",\n    \"\\ufffd\": \"1\"\n\x7d\n", none⟩ ∧
    collidingStore.keys = [[0xFE], [0xFF]] ∧
    (memberLines (sortByName collidingStore.entries)).map parseMemberLine =
      [some ([0xEF, 0xBF, 0xBD], ascii "2"), some ([0xEF, 0xBF, 0xBD], ascii "1")] ∧
    ¬ ((memberLines (sortByName collidingStore.entries)).map parseMemberLine =
      (sortByName collidingStore.entries).map some) ∧
    collidingStore.get [0xEF, 0xBF, 0xBD] = none ∧
    decodeStringMap (encode (.strMap collidingStore)) =
      some (GoMap.empty.set [0xEF, 0xBF, 0xBD] (ascii "1")) ∧
    ¬ (∃ w m, configHandler collidingStore (ResponseWriter.fresh none) getConfig = .returned w ∧
        decodeStringMap w.body = some m ∧ ∀ k, m.get k = collidingStore.get k) := by
  have hd : decodeStringMap (encode (.strMap collidingStore)) =
      some (GoMap.empty.set [0xEF, 0xBF, 0xBD] (ascii "1")) := by decide
  refine ⟨by decide, by decide, by decide, by decide, by decide, hd, ?_⟩
  rintro ⟨w, m, hw, hm, hk⟩
  rw [configHandler_fresh] at hw
  cases hw
  rw [hd] at hm
  cases hm
  have := hk [0xFF]
  revert this
  decide

/-- C4, amended: for a store whose item names and contents are valid UTF-8
the body that `configHandler` writes is one JSON object with exactly one
member for each item of the store and no other: the body is `{}` without
item, else an opening brace, one line for each item and a closing brace; the
line of an item is four spaces and the member, and the member read back from
the line has the item name as name and the item content as value; decoded as
a JSON object the body gives a map with the lookups of the store. For the
store with `a.txt` and `b.txt` the body is the object with these two members
and nothing else. -/
theorem configHandler_members (config : GoMap) (req : Request)
    (hv : ∀ kv ∈ config.entries, validString kv.1 = true ∧ validString kv.2 = true) :
    ∃ w, configHandler config (ResponseWriter.fresh none) req = .returned w ∧
      w.status = some 200 ∧
      lines w.body = bodyLines (sortByName config.entries) ∧
      (memberLines (sortByName config.entries)).map parseMemberLine =
        (sortByName config.entries).map some ∧
      (∀ kv, kv ∈ sortByName config.entries ↔ config.get kv.1 = some kv.2) ∧
      (sortByName config.entries).Perm config.entries ∧
      (memberLines (sortByName config.entries)).length = config.len ∧
      (∃ m, decodeStringMap w.body = some m ∧ ∀ k, m.get k = config.get k) ∧
      (∀ kv rest, memberLines (kv :: rest) =
        ([0x20, 0x20, 0x20, 0x20] ++ (appendString kv.1 ++ [0x3A, 0x20] ++ appendString kv.2) ++
          (if rest = [] then [] else [0x2C])) :: memberLines rest) ∧
      (∀ s, ∃ t, appendString s = 0x22 :: t) ∧
      configHandler sampleStore (ResponseWriter.fresh none) req =
        .returned ⟨some 200,
          ascii "\x7b\n    \"a.txt\": \"1\",\n    \"b.txt\": \"2\"\n\x7d\n", none⟩ := by
  have hv' : ∀ kv ∈ sortByName config.entries,
      validString kv.1 = true ∧ validString kv.2 = true :=
    fun kv hkv => hv kv ((sortByName_perm config.entries).mem_iff.1 hkv)
  refine ⟨_, configHandler_fresh config req, rfl, lines_encode_strMap config,
    parseMemberLine_memberLines _ hv', ?_, sortByName_perm _, ?_,
    ⟨_, decodeStringMap_encode config hv, get_setAll_sorted config⟩,
    fun kv rest => rfl, fun s => ⟨_, rfl⟩, ?_⟩
  · intro kv
    rw [(sortByName_perm config.entries).mem_iff, GoMap.mem_entries_iff]
  · rw [memberLines_length, (sortByName_perm config.entries).length_eq]
    rfl
  · rw [configHandler_fresh]
    decide

/-- C4, amended, for the store with `a.txt` and `b.txt`. -/
theorem configHandler_members_witness :
    (∀ kv ∈ sampleStore.entries, validString kv.1 = true ∧ validString kv.2 = true) ∧
    ∃ w, configHandler sampleStore (ResponseWriter.fresh none) getConfig = .returned w ∧
      w.status = some 200 ∧
      lines w.body = bodyLines (sortByName sampleStore.entries) ∧
      (memberLines (sortByName sampleStore.entries)).map parseMemberLine =
        (sortByName sampleStore.entries).map some ∧
      (∃ m, decodeStringMap w.body = some m ∧ ∀ k, m.get k = sampleStore.get k) := by
  refine ⟨by decide, ?_⟩
  obtain ⟨w, h1, h2, h3, h4, _, _, _, h8, _⟩ :=
    configHandler_members sampleStore getConfig (by decide)
  exact ⟨w, h1, h2, h3, h4, h8⟩

theorem encode_ping_value (v : GoString) (hv : v ≠ []) :
    encode (PingResult.toValue ⟨v, none⟩) =
      [0x0A].intercalate (bodyLines [(ascii "value", v)]) := by
  rw [← render_object_strings]
  rcases v with _ | ⟨b, v⟩
  · exact absurd rfl hv
  · rfl

theorem pingHandler_fresh (config : GoMap) (cache : Cache) (req : Request) :
    pingHandler config cache (ResponseWriter.fresh none) req =
      .returned ⟨some 200,
        encode (PingResult.toValue
          ⟨(cache (redisOptions config)).1, (cache (redisOptions config)).2⟩), none⟩ := rfl

theorem marshal_ping (v : GoString) (err : Option GoError) :
    marshal (PingResult.toValue ⟨v, err⟩) =
      .object ((if v = [] then [] else [(ascii "value", JValue.string v)]) ++
        (match err with
          | none => []
          | some e => [(ascii "error", marshal e.value)])) := by
  rcases v with _ | ⟨b, v⟩ <;> rcases err with _ | e <;>
    simp [PingResult.toValue, marshal, marshalFields, isEmptyValue]

theorem encode_ping_error (v : GoString) (e : GoError) :
    encode (PingResult.toValue ⟨v, some e⟩) =
      [0x7B] ++ newline 1 ++
        (if v = [] then [] else memberText (ascii "value", v) ++ [0x2C] ++ newline 1) ++
        (ascii "\"error\": " ++ render 1 (marshal e.value)) ++ [0x0A, 0x7D, 0x0A] := by
  have h : appendString (ascii "error") = ascii "\"error\"" := by decide
  unfold encode
  rw [marshal_ping]
  rcases v with _ | ⟨b, v⟩
  · simp only [if_true, List.nil_append, render, renderMembers, h]
    simp [newline, ascii]
  · simp only [List.cons_ne_nil, if_false, List.singleton_append, render, renderMembers, h,
      memberText]
    simp [newline, ascii]

set_option maxRecDepth 100000 in
/-- C5, at two failing probes: every response has status 200 and an
`error` member, but the member is the JSON of the value that the Go error
holds, not a string with its description. For an error made by `errors.New`
the member is the empty object and the text `connection refused` is nowhere
in the body; for the refused dial it is an object with the fields of
`net.OpError`. An error reply of Redis, a string type, is written as a
string. -/
theorem pingHandler_error_body :
    pingHandler GoMap.empty refusedCache (ResponseWriter.fresh none) getPing =
      .returned ⟨some 200, ascii "\x7b\n    \"error\": \x7b\x7d\n\x7d\n", none⟩ ∧
    ¬ (ascii "connection refused" <:+:
        ascii "\x7b\n    \"error\": \x7b\x7d\n\x7d\n") ∧
    pingHandler GoMap.empty unreachableCache (ResponseWriter.fresh none) getPing =
      .returned ⟨some 200,
        ascii ("\x7b\n    \"error\": \x7b\n        \"Op\": \"dial\",\n" ++
          "        \"Net\": \"tcp\",\n        \"Source\": null,\n" ++
          "        \"Addr\": \x7b\n            \"IP\": \"127.0.0.1\",\n" ++
          "            \"Port\": 6379,\n            \"Zone\": \"\"\n        \x7d,\n" ++
          "        \"Err\": \x7b\n            \"Syscall\": \"connect\",\n" ++
          "            \"Err\": 111\n        \x7d\n    \x7d\n\x7d\n"), none⟩ ∧
    pingHandler GoMap.empty (fun _ => ([], some (redisError (ascii "NOAUTH"))))
        (ResponseWriter.fresh none) getPing =
      .returned ⟨some 200, ascii "\x7b\n    \"error\": \"NOAUTH\"\n\x7d\n", none⟩ := by
  refine ⟨by decide, by decide, by decide, by decide⟩

/-- The body of `pingHandler` for any reply `v` that is not empty, without
error: status 200 and four lines, an opening brace, the one member `"value"`
with the JSON string that `appendString` writes for `v`, a closing brace, and
nothing after the final line feed. -/
theorem pingHandler_lines (config : GoMap) (cache : Cache) (req : Request) (v : GoString)
    (hv : v ≠ []) (hc : cache (redisOptions config) = (v, none)) :
    ∃ w, pingHandler config cache (ResponseWriter.fresh none) req = .returned w ∧
      w.status = some 200 ∧
      w.body = encode (PingResult.toValue ⟨v, none⟩) ∧
      lines w.body =
        [[0x7B], [0x20, 0x20, 0x20, 0x20] ++ (ascii "\"value\": " ++ appendString v),
          [0x7D], []] ∧
      (v = ascii "PONG" →
        w.body = ascii "\x7b\n    \"value\": \"PONG\"\n\x7d\n") := by
  refine ⟨_, pingHandler_fresh config cache req, rfl, ?_, ?_, ?_⟩
  · simp only [hc]
  · simp only [hc]
    rw [encode_ping_value v hv, lines_bodyLines]
    have e : appendString (ascii "value") = ascii "\"value\"" := by decide
    simp only [bodyLines, memberLines, memberText, e]
    rw [if_neg (List.cons_ne_nil _ _), if_pos trivial, List.append_nil]
    rfl
  · rintro rfl
    simp only [hc]
    decide

/-- C6 does not hold as stated: for the reply `0xFF`, one byte that is no
UTF-8, the member `"value"` of the body is U+FFFD, not the reply, and the
body is the body for the reply `0xFE`. -/
theorem pingHandler_replaces_invalid_reply :
    pingHandler GoMap.empty invalidReplyCache (ResponseWriter.fresh none) getPing =
      .returned ⟨some 200, ascii "\x7b\n    \"value\": \"\\ufffd\"\n\x7d\n", none⟩ ∧
    pingHandler GoMap.empty invalidReplyCache' (ResponseWriter.fresh none) getPing =
      pingHandler GoMap.empty invalidReplyCache (ResponseWriter.fresh none) getPing ∧
    invalidReplyCache (redisOptions GoMap.empty) = ([0xFF], none) ∧
    invalidReplyCache' (redisOptions GoMap.empty) = ([0xFE], none) ∧
    parseMemberLine (ascii "    \"value\": \"\\ufffd\"") =
      some (ascii "value", [0xEF, 0xBF, 0xBD]) ∧
    ¬ (∃ w m, pingHandler GoMap.empty invalidReplyCache (ResponseWriter.fresh none) getPing =
          .returned w ∧
        decodeStringMap w.body = some m ∧ m.get (ascii "value") = some [0xFF]) := by
  have hb : pingHandler GoMap.empty invalidReplyCache (ResponseWriter.fresh none) getPing =
      .returned ⟨some 200, ascii "\x7b\n    \"value\": \"\\ufffd\"\n\x7d\n", none⟩ := by
    decide
  have hd : decodeStringMap (ascii "\x7b\n    \"value\": \"\\ufffd\"\n\x7d\n") =
      some (GoMap.empty.set (ascii "value") [0xEF, 0xBF, 0xBD]) := by decide
  refine ⟨hb, by decide, rfl, rfl, by decide, ?_⟩
  rintro ⟨w, m, hw, hm, hk⟩
  rw [hb] at hw
  cases hw
  rw [hd] at hm
  cases hm
  revert hk
  decide

/-- C6, amended: when the probe returns a reply `v` that is not empty and
is valid UTF-8, and no error, `pingHandler` answers with status 200 and a
body of four lines: an opening brace, one member, a closing brace, and
nothing after the final line feed. The member read back from its line has
the name `value` and the value `v`, and the body decoded as a JSON object is
the map with the one entry `value` for `v`: there is no `error` member. For
the reply `PONG` the body is the object with the member `"value": "PONG"`. -/
theorem pingHandler_value (config : GoMap) (cache : Cache) (req : Request) (v : GoString)
    (hv : v ≠ []) (hvalid : validString v = true)
    (hc : cache (redisOptions config) = (v, none)) :
    ∃ w, pingHandler config cache (ResponseWriter.fresh none) req = .returned w ∧
      w.status = some 200 ∧
      lines w.body =
        [[0x7B], [0x20, 0x20, 0x20, 0x20] ++ (ascii "\"value\": " ++ appendString v),
          [0x7D], []] ∧
      parseMemberLine ([0x20, 0x20, 0x20, 0x20] ++ (ascii "\"value\": " ++ appendString v)) =
        some (ascii "value", v) ∧
      decodeStringMap w.body = some (GoMap.empty.set (ascii "value") v) ∧
      (v = ascii "PONG" →
        w.body = ascii "\x7b\n    \"value\": \"PONG\"\n\x7d\n") := by
  obtain ⟨w, h1, h2, h3, h4, h5⟩ := pingHandler_lines config cache req v hv hc
  refine ⟨w, h1, h2, h4, ?_, ?_, h5⟩
  · have := parseMemberLine_memberText (ascii "value", v) [] (Or.inl rfl)
      (show validString (ascii "value") = true by decide) hvalid
    rw [List.append_nil] at this
    exact this
  · have hm : ∀ kv ∈ (GoMap.empty.set (ascii "value") v).entries,
        validString kv.1 = true ∧ validString kv.2 = true := by
      intro kv hkv
      have : kv = (ascii "value", v) := by simpa [GoMap.set, GoMap.empty] using hkv
      subst this
      exact ⟨show validString (ascii "value") = true by decide, hvalid⟩
    have hdec := decodeStringMap_encode (GoMap.empty.set (ascii "value") v) hm
    have he : encode (.strMap (GoMap.empty.set (ascii "value") v)) =
        encode (PingResult.toValue ⟨v, none⟩) := by
      rw [encode_strMap, encode_ping_value v hv]
      rfl
    rw [h3, ← he, hdec]
    rfl

/-- C6, amended, for a cache that answers `PONG`. -/
theorem pingHandler_value_witness :
    ascii "PONG" ≠ [] ∧ validString (ascii "PONG") = true ∧
    pongCache (redisOptions GoMap.empty) = (ascii "PONG", none) ∧
    ∃ w, pingHandler GoMap.empty pongCache (ResponseWriter.fresh none) getPing = .returned w ∧
      w.status = some 200 ∧
      lines w.body =
        [[0x7B], [0x20, 0x20, 0x20, 0x20] ++ (ascii "\"value\": " ++ appendString (ascii "PONG")),
          [0x7D], []] ∧
      parseMemberLine
          ([0x20, 0x20, 0x20, 0x20] ++ (ascii "\"value\": " ++ appendString (ascii "PONG"))) =
        some (ascii "value", ascii "PONG") ∧
      decodeStringMap w.body = some (GoMap.empty.set (ascii "value") (ascii "PONG")) ∧
      w.body = ascii "\x7b\n    \"value\": \"PONG\"\n\x7d\n" := by
  refine ⟨by decide, by decide, rfl, ?_⟩
  obtain ⟨w, h1, h2, h3, h4, h5, h6⟩ :=
    pingHandler_value GoMap.empty pongCache getPing (ascii "PONG") (by decide) (by decide) rfl
  exact ⟨w, h1, h2, h3, h4, h5, h6 rfl⟩

theorem write_error_iff (w : ResponseWriter) (p : GoString) (e : Errno) :
    (w.Write p).2 = some e ↔ w.broken = some e := by
  unfold ResponseWriter.Write
  simp only
  cases w.broken <;> simp

/-- C7: `configHandler` and `pingHandler` end the process exactly when
`writeJSONResponse` returns an error, which it does exactly when the write to
the response fails. Whatever the probe returns, with a working response
writer `pingHandler` returns and has written the encoded result of the probe;
so does `configHandler` with the store. The error of a failed probe is in
the body and nowhere else: the object written has the member `error`, after
the member `value` when the reply is not empty, exactly when the probe
returned an error, and the member holds the encoded value of the error. -/
theorem handlers_fatal_iff_write_fails (config : GoMap) (cache : Cache) (w : ResponseWriter)
    (req : Request) (e : Errno) :
    (configHandler config w req = .fatal e ↔
      (writeJSONResponse w (.strMap config)).2 = some e) ∧
    (pingHandler config cache w req = .fatal e ↔
      (writeJSONResponse w (PingResult.toValue
        ⟨(cache (redisOptions config)).1, (cache (redisOptions config)).2⟩)).2 = some e) ∧
    (∀ v, (writeJSONResponse w v).2 = some e ↔ w.broken = some e) ∧
    (w.broken = none →
      configHandler config w req =
        .returned ⟨some (w.status.getD 200), w.body ++ encode (.strMap config), none⟩ ∧
      pingHandler config cache w req =
        .returned ⟨some (w.status.getD 200),
          w.body ++ encode (PingResult.toValue
            ⟨(cache (redisOptions config)).1, (cache (redisOptions config)).2⟩), none⟩) ∧
    (∀ v err, marshal (PingResult.toValue ⟨v, err⟩) =
      .object ((if v = [] then [] else [(ascii "value", JValue.string v)]) ++
        (match err with
          | none => []
          | some pingError => [(ascii "error", marshal pingError.value)]))) ∧
    (∀ v pingError, cache (redisOptions config) = (v, some pingError) → w.broken = none →
      ∃ w', pingHandler config cache w req = .returned w' ∧
        w'.status = some (w.status.getD 200) ∧
        w'.body = w.body ++ ([0x7B] ++ newline 1 ++
          (if v = [] then [] else memberText (ascii "value", v) ++ [0x2C] ++ newline 1) ++
          (ascii "\"error\": " ++ render 1 (marshal pingError.value)) ++ [0x0A, 0x7D, 0x0A]) ∧
        ascii "\"error\": " <:+: w'.body) := by
  have hret : w.broken = none →
      configHandler config w req =
        .returned ⟨some (w.status.getD 200), w.body ++ encode (.strMap config), none⟩ ∧
      pingHandler config cache w req =
        .returned ⟨some (w.status.getD 200),
          w.body ++ encode (PingResult.toValue
            ⟨(cache (redisOptions config)).1, (cache (redisOptions config)).2⟩), none⟩ := by
    intro hb
    obtain ⟨s, b, br⟩ := w
    simp only at hb
    subst hb
    exact ⟨rfl, rfl⟩
  refine ⟨?_, ?_, fun v => write_error_iff w _ e, hret, marshal_ping, ?_⟩
  · unfold configHandler
    rcases h : writeJSONResponse w (.strMap config) with ⟨w', _ | e'⟩
    · simp
    · simp
  · show (match writeJSONResponse w (PingResult.toValue
        ⟨(cache (redisOptions config)).1, (cache (redisOptions config)).2⟩) with
      | (_, some err) => Outcome.fatal err
      | (w, none) => Outcome.returned w) = _ ↔ _
    rcases h : writeJSONResponse w (PingResult.toValue
        ⟨(cache (redisOptions config)).1, (cache (redisOptions config)).2⟩) with ⟨w', _ | e'⟩
    · simp
    · simp
  · intro v pingError hc hb
    have h := (hret hb).2
    rw [hc] at h
    simp only at h
    rw [encode_ping_error] at h
    refine ⟨_, h, rfl, rfl, ?_⟩
    exact ⟨w.body ++ ([0x7B] ++ newline 1 ++
        (if v = [] then [] else memberText (ascii "value", v) ++ [0x2C] ++ newline 1)),
      render 1 (marshal pingError.value) ++ [0x0A, 0x7D, 0x0A], by
        simp only [List.append_assoc]⟩

/-- C7 for a probe that fails with an error made by `errors.New`, on a new
response writer: the handler returns and the body has the member `error`. -/
theorem handlers_fatal_iff_write_fails_witness :
    refusedCache (redisOptions GoMap.empty) =
      ([], some (errorsNew (ascii "connection refused"))) ∧
    (ResponseWriter.fresh none).broken = none ∧
    ∃ w', pingHandler GoMap.empty refusedCache (ResponseWriter.fresh none) getPing =
        .returned w' ∧
      w'.status = some 200 ∧
      w'.body = ascii "\x7b\n    \"error\": \x7b\x7d\n\x7d\n" ∧
      ascii "\"error\": " <:+: w'.body := by
  refine ⟨rfl, rfl, ?_⟩
  obtain ⟨w', h1, h2, h3, h4⟩ :=
    (handlers_fatal_iff_write_fails GoMap.empty refusedCache (ResponseWriter.fresh none) getPing
      Errno.EPIPE).2.2.2.2.2 [] (errorsNew (ascii "connection refused")) rfl rfl
  refine ⟨w', h1, h2, ?_, h4⟩
  rw [h3]
  decide

/-- C9: the handler that `main` registers on `/` is the same for every
store and every cache; for every request it returns, and with a working
response writer it adds exactly the bytes of the embedded page to the body,
so a new response has status 200 and the page as body. -/
theorem index_handler_independent (index : GoString) (config config' : GoMap)
    (cache cache' : Cache) (req req' : Request) (w : ResponseWriter) :
    ∃ h h', handlerAt (ascii "/") (registrations index config cache) = some h ∧
      handlerAt (ascii "/") (registrations index config' cache') = some h' ∧
      h w req = h' w req' ∧
      (w.broken = none →
        h w req = .returned ⟨some (w.status.getD 200), w.body ++ index, none⟩) ∧
      h (ResponseWriter.fresh none) req = .returned ⟨some 200, index, none⟩ := by
  refine ⟨indexHandler index, indexHandler index, rfl, rfl, rfl, ?_, rfl⟩
  intro hb
  obtain ⟨s, b, br⟩ := w
  simp only at hb
  subst hb
  rfl

theorem serve_config (p : Process) (cache : Cache) (req : Request)
    (h : req.path = ascii "/config") (w : ResponseWriter) :
    p.serve cache w req =
      match configHandler p.config w req with
      | .returned w => .returned (p, w)
      | .fatal e => .fatal e := by
  unfold Process.serve
  rw [h]
  rfl

/-- C10: two requests for `/config` in a row, each with a new response
writer, get the same body; serving a request leaves what the process holds
as it was. The body is determined by the lookups of the store: a store with
the same lookups gives the same bytes, and the members are in the strict
order of their keys whatever the order of the entries. -/
theorem config_requests_identical (p : Process) (cache cache' : Cache) (req req' : Request)
    (h : req.path = ascii "/config") (h' : req'.path = ascii "/config") :
    (∃ p₁ w₁ p₂ w₂, p.serve cache (ResponseWriter.fresh none) req = .returned (p₁, w₁) ∧
      p₁.serve cache' (ResponseWriter.fresh none) req' = .returned (p₂, w₂) ∧
      p₁ = p ∧ p₂ = p ∧ w₁.body = w₂.body ∧ w₁.body = encode (.strMap p.config)) ∧
    (∀ q w₁ w₂ any, p.serve cache w₁ any = .returned (q, w₂) → q = p) ∧
    (∀ config' : GoMap, (∀ k, config'.get k = p.config.get k) →
      encode (.strMap config') = encode (.strMap p.config)) ∧
    marshal (.strMap p.config) =
      .object ((sortByName p.config.entries).map (fun kv => (kv.1, .string kv.2))) ∧
    (sortByName p.config.entries).Sorted nameLt ∧
    (sortByName p.config.entries).Perm p.config.entries := by
  refine ⟨⟨p, ⟨some 200, encode (.strMap p.config), none⟩, p,
    ⟨some 200, encode (.strMap p.config), none⟩, ?_, ?_, rfl, rfl, rfl, rfl⟩, ?_, ?_, ?_,
    sortByName_strict _ p.config.nodup,
    sortByName_perm _⟩
  · rw [serve_config p cache req h, configHandler_fresh]
  · rw [serve_config p cache' req' h', configHandler_fresh]
  · intro q w₁ w₂ any hq
    unfold Process.serve at hq
    simp only at hq
    split at hq
    · split at hq
      · simp only [Outcome.returned.injEq, Prod.mk.injEq] at hq
        exact hq.1.symm
      · cases hq
    · simp only [Outcome.returned.injEq, Prod.mk.injEq] at hq
      exact hq.1.symm
  · intro config' hget
    rw [encode_strMap, encode_strMap, sortByName_eq_of_get_eq config' p.config hget]
  · rw [marshal]

/-- C10 for the sample store. -/
theorem config_requests_identical_witness :
    getConfig.path = ascii "/config" ∧
    ∃ p₁ w₁ p₂ w₂,
      (Process.mk sampleStore []).serve pongCache (ResponseWriter.fresh none) getConfig =
        .returned (p₁, w₁) ∧
      p₁.serve refusedCache (ResponseWriter.fresh none) getConfig = .returned (p₂, w₂) ∧
      p₁ = Process.mk sampleStore [] ∧ p₂ = Process.mk sampleStore [] ∧ w₁.body = w₂.body ∧
      w₁.body = encode (.strMap sampleStore) :=
  ⟨rfl, (config_requests_identical (Process.mk sampleStore []) pongCache refusedCache getConfig
    getConfig rfl rfl).1⟩

/-- C8 does not hold as stated: the stores `brokenStore` and `brokenStore'`
differ in the content of the item `k` (the byte `0xFF` and the byte `0xFE`,
neither of them UTF-8) and get the same body, in which the content is
`\ufffd`; decoding the body of `brokenStore` gives a map whose item is
U+FFFD, not the store. -/
theorem config_body_replaces_invalid_bytes :
    ¬ (∃ w m, configHandler brokenStore (ResponseWriter.fresh none) getConfig = .returned w ∧
        decodeStringMap w.body = some m ∧ ∀ k, m.get k = brokenStore.get k) ∧
    encode (.strMap brokenStore) = encode (.strMap brokenStore') ∧
    brokenStore.get (ascii "k") = some [0xFF] ∧
    brokenStore'.get (ascii "k") = some [0xFE] ∧
    encode (.strMap brokenStore) = ascii "\x7b\n    \"k\": \"\\ufffd\"\n\x7d\n" ∧
    decodeStringMap (encode (.strMap brokenStore)) =
      some (GoMap.empty.set (ascii "k") [0xEF, 0xBF, 0xBD]) := by
  have hd : decodeStringMap (encode (.strMap brokenStore)) =
      some (GoMap.empty.set (ascii "k") [0xEF, 0xBF, 0xBD]) := by decide
  refine ⟨?_, by decide, by decide, by decide, by decide, hd⟩
  rintro ⟨w, m, hw, hm, hk⟩
  rw [configHandler_fresh] at hw
  cases hw
  rw [hd] at hm
  cases hm
  have := hk (ascii "k")
  revert this
  decide

/-- C8, amended: for a store whose item names and contents are valid UTF-8,
decoding the body that `configHandler` writes as a JSON object of strings
gives a map with the same lookups as the store: quotes, control characters,
`<`, `>` and `&` come back as they were. A byte that starts no valid UTF-8
sequence is written as `\ufffd`. -/
theorem config_body_roundtrip (config : GoMap) (req : Request)
    (hv : ∀ kv ∈ config.entries, validString kv.1 = true ∧ validString kv.2 = true) :
    (∃ w m, configHandler config (ResponseWriter.fresh none) req = .returned w ∧
      decodeStringMap w.body = some m ∧ ∀ k, m.get k = config.get k) ∧
    (∀ n b rest, ¬ b < 0x80 → decodeRune (b :: rest) = (RuneError, 1) →
      appendStringLoop (n + 1) (b :: rest) =
        ascii "\\ufffd" ++ appendStringLoop n rest) := by
  refine ⟨⟨_, _, configHandler_fresh config req, decodeStringMap_encode config hv,
    get_setAll_sorted config⟩, ?_⟩
  intro n b rest h0 hd
  exact appendStringLoop_invalid n b rest h0 hd

/-- C8, amended, for a store with quotes, control characters, `<`, `>`, `&`
and runes of two to four bytes. -/
theorem config_body_roundtrip_witness :
    (∀ kv ∈ specialStore.entries, validString kv.1 = true ∧ validString kv.2 = true) ∧
    ∃ w m, configHandler specialStore (ResponseWriter.fresh none) getConfig = .returned w ∧
      decodeStringMap w.body = some m ∧ ∀ k, m.get k = specialStore.get k :=
  ⟨by decide, (config_body_roundtrip specialStore getConfig (by decide)).1⟩

end MeetupDemo
